import Mathlib

/-!
Verification development for the chess engine core of this repository
(src/chess_gui/src/board.rs, src/chess_gui/src/ai.rs).

The Rust data model is embedded shallowly:

* `Board` mirrors `board.rs::Board`; the 8x8 grid of `Option<Piece>` is a
  total function on coordinate pairs, written by `set_piece` (point update)
  exactly where the Rust code assigns.
* Machine integers: Rust `i32` scores are modelled as `Int` (every score the
  engine builds is far inside the `i32` range, so no wrap-around is possible
  and no explicit reduction is needed); Rust `u64` Zobrist values are `Nat`
  kept below 2^64 (xor does not leave that range).
* `usize::try_into` plus the `< 8` guards of the Rust code are modelled by
  `off`, which yields a coordinate only when it lies on the board.
* Wall-clock reads: the engine only ever uses the clock through comparisons
  of the form `start.elapsed() > bound`.  Those boolean answers are modelled
  by an oracle `o : Nat -> Bool`, consulted in program order (the `Nat` index
  counts the checks made so far); every real-time execution corresponds to
  one oracle.
* `HashMap<u64, TranspositionEntry>` is an association list with
  first-match lookup and key-replacing insert.
* The Zobrist table of `ChessAI::init_zobrist` is produced by Rust's
  `DefaultHasher` (SipHash-1-3); per the design the concrete values are
  irrelevant and need not be stable across runs, so the tables are
  construction parameters of the embedded `ChessAI`.
-/

inductive PieceType where
  | Pawn | Rook | Knight | Bishop | Queen | King
deriving DecidableEq, Repr

inductive Color where
  | White | Black
deriving DecidableEq, Repr

def Color.opposite : Color → Color
  | .White => .Black
  | .Black => .White

structure Piece where
  piece_type : PieceType
  color : Color
deriving DecidableEq, Repr

/-- Move as in types.rs: source, destination, optional promotion.
`from` is a Lean keyword, hence the field name `from'`. -/
structure Move where
  from' : Nat × Nat
  to' : Nat × Nat
  promotion : Option PieceType
deriving DecidableEq, Repr

structure Board where
  squares : Nat × Nat → Option Piece
  white_king_pos : Nat × Nat
  black_king_pos : Nat × Nat
  white_king_moved : Bool
  black_king_moved : Bool
  white_rook_a_moved : Bool
  white_rook_h_moved : Bool
  black_rook_a_moved : Bool
  black_rook_h_moved : Bool
  en_passant_target : Option (Nat × Nat)

def Board.get_piece (b : Board) (pos : Nat × Nat) : Option Piece :=
  b.squares pos

def Board.set_piece (b : Board) (pos : Nat × Nat) (piece : Option Piece) : Board :=
  { b with squares := fun q => if q = pos then piece else b.squares q }

/-- The board value constructed at the top of `Board::new`, before
`setup_initial_position` runs. -/
def Board.empty : Board :=
  { squares := fun _ => none
    white_king_pos := (7, 4)
    black_king_pos := (0, 4)
    white_king_moved := false
    black_king_moved := false
    white_rook_a_moved := false
    white_rook_h_moved := false
    black_rook_a_moved := false
    black_rook_h_moved := false
    en_passant_target := none }

/-- Piece placement of `setup_initial_position`, applied square by square in
the order of the Rust assignments. -/
def setup_initial_position (b : Board) : Board :=
  let b := b.set_piece (7, 0) (some ⟨.Rook, .White⟩)
  let b := b.set_piece (7, 1) (some ⟨.Knight, .White⟩)
  let b := b.set_piece (7, 2) (some ⟨.Bishop, .White⟩)
  let b := b.set_piece (7, 3) (some ⟨.Queen, .White⟩)
  let b := b.set_piece (7, 4) (some ⟨.King, .White⟩)
  let b := b.set_piece (7, 5) (some ⟨.Bishop, .White⟩)
  let b := b.set_piece (7, 6) (some ⟨.Knight, .White⟩)
  let b := b.set_piece (7, 7) (some ⟨.Rook, .White⟩)
  let b := (List.range 8).foldl (fun b col => b.set_piece (6, col) (some ⟨.Pawn, .White⟩)) b
  let b := b.set_piece (0, 0) (some ⟨.Rook, .Black⟩)
  let b := b.set_piece (0, 1) (some ⟨.Knight, .Black⟩)
  let b := b.set_piece (0, 2) (some ⟨.Bishop, .Black⟩)
  let b := b.set_piece (0, 3) (some ⟨.Queen, .Black⟩)
  let b := b.set_piece (0, 4) (some ⟨.King, .Black⟩)
  let b := b.set_piece (0, 5) (some ⟨.Bishop, .Black⟩)
  let b := b.set_piece (0, 6) (some ⟨.Knight, .Black⟩)
  let b := b.set_piece (0, 7) (some ⟨.Rook, .Black⟩)
  (List.range 8).foldl (fun b col => b.set_piece (1, col) (some ⟨.Pawn, .Black⟩)) b

def Board.new : Board := setup_initial_position Board.empty

/-- Offsetting a square by a signed delta; `some` exactly when the Rust
`try_into` (non-negativity) and the `< 8` guards both pass. -/
def off (p : Nat × Nat) (d : Int × Int) : Option (Nat × Nat) :=
  let r : Int := (p.1 : Int) + d.1
  let c : Int := (p.2 : Int) + d.2
  if 0 ≤ r ∧ r < 8 ∧ 0 ≤ c ∧ c < 8 then some (r.toNat, c.toNat) else none

/-- Execute one move, `board.rs::make_move`.  Returns the Rust boolean result
together with the updated board.  The single `unwrap` on the castling rook is
modelled by moving the rook square's `Option` value wholesale (the Rust code
panics when that square is empty; every caller reaches this branch only for
validated castling moves, where the rook is present). -/
def Board.make_move (b : Board) (mv : Move) : Bool × Board :=
  match b.get_piece mv.from' with
  | none => (false, b)
  | some piece =>
    let b := { b with en_passant_target := none }
    let b :=
      if piece.piece_type = .King then
        let col_diff : Int := (mv.to'.2 : Int) - (mv.from'.2 : Int)
        let b :=
          if col_diff.natAbs = 2 then
            let rook_cols : Nat × Nat := if col_diff > 0 then (7, 5) else (0, 3)
            let rook := b.get_piece (mv.from'.1, rook_cols.1)
            let b := b.set_piece (mv.from'.1, rook_cols.1) none
            b.set_piece (mv.from'.1, rook_cols.2) rook
          else b
        match piece.color with
        | .White => { b with white_king_pos := mv.to', white_king_moved := true }
        | .Black => { b with black_king_pos := mv.to', black_king_moved := true }
      else b
    let b :=
      if piece.piece_type = .Pawn then
        let row_diff : Nat := ((mv.to'.1 : Int) - (mv.from'.1 : Int)).natAbs
        let b :=
          if row_diff = 2 then
            let en_passant_row : Nat :=
              if piece.color = .White then mv.from'.1 - 1 else mv.from'.1 + 1
            { b with en_passant_target := some (en_passant_row, mv.from'.2) }
          else b
        if (mv.from'.2 != mv.to'.2) && (b.get_piece mv.to').isNone then
          b.set_piece (mv.from'.1, mv.to'.2) none
        else b
      else b
    let b :=
      if piece.piece_type = .Rook then
        match piece.color, mv.from' with
        | .White, (7, 0) => { b with white_rook_a_moved := true }
        | .White, (7, 7) => { b with white_rook_h_moved := true }
        | .Black, (0, 0) => { b with black_rook_a_moved := true }
        | .Black, (0, 7) => { b with black_rook_h_moved := true }
        | _, _ => b
      else b
    let final_piece :=
      if piece.piece_type = .Pawn then
        if (piece.color = .White ∧ mv.to'.1 = 0) ∨ (piece.color = .Black ∧ mv.to'.1 = 7) then
          (⟨mv.promotion.getD .Queen, piece.color⟩ : Piece)
        else piece
      else piece
    let b := b.set_piece mv.from' none
    (true, b.set_piece mv.to' (some final_piece))

def knight_offsets : List (Int × Int) :=
  [(2, 1), (2, -1), (-2, 1), (-2, -1), (1, 2), (1, -2), (-1, 2), (-1, -2)]

def all_directions : List (Int × Int) :=
  [(0, 1), (1, 0), (0, -1), (-1, 0), (1, 1), (1, -1), (-1, 1), (-1, -1)]

def king_offsets : List (Int × Int) :=
  [(1, 0), (-1, 0), (0, 1), (0, -1), (1, 1), (1, -1), (-1, 1), (-1, -1)]

/-- Does a piece of this type attack along direction `d`, as in the sliding
match of `is_in_check`. -/
def sliding_matches (pt : PieceType) (d : Int × Int) : Bool :=
  match pt with
  | .Queen => true
  | .Rook => d.1 = 0 || d.2 = 0
  | .Bishop => d.1 ≠ 0 && d.2 ≠ 0
  | _ => false

/-- One sliding-attack ray of `is_in_check`: walk from `(r, c)` in direction
`d` until leaving the board or hitting a piece.  The walk visits at most 8
squares, hence the fuel. -/
def ray_attacked (b : Board) (opp : Color) (d : Int × Int) : Int → Int → Nat → Bool
  | _, _, 0 => false
  | r, c, fuel + 1 =>
    if 0 ≤ r ∧ r < 8 ∧ 0 ≤ c ∧ c < 8 then
      match b.get_piece (r.toNat, c.toNat) with
      | some piece =>
        if piece.color = opp then sliding_matches piece.piece_type d else false
      | none => ray_attacked b opp d (r + d.1) (c + d.2) fuel
    else false

/-- The inline occupancy test of `is_in_check`: the optional target square
holds an enemy piece of the stated type. -/
def hit_enemy (b : Board) (opp : Color) (q : Option (Nat × Nat)) (pt : PieceType) : Bool :=
  match q with
  | some q =>
    match b.get_piece q with
    | some piece => piece.color = opp ∧ piece.piece_type = pt
    | none => false
  | none => false

/-- `board.rs::is_in_check`: knight jumps, sliding rays, pawn squares and the
adjacent enemy king, in the order of the Rust code. -/
def Board.is_in_check (b : Board) (color : Color) : Bool :=
  let king_pos := match color with
    | .White => b.white_king_pos
    | .Black => b.black_king_pos
  let opp := color.opposite
  (knight_offsets.any fun d => hit_enemy b opp (off king_pos d) .Knight) ||
  (all_directions.any fun d =>
    ray_attacked b opp d ((king_pos.1 : Int) + d.1) ((king_pos.2 : Int) + d.2) 8) ||
  (let pawn_dirs : List (Int × Int) :=
    if color = .White then [(-1, -1), (-1, 1)] else [(1, -1), (1, 1)]
   pawn_dirs.any fun d => hit_enemy b opp (off king_pos d) .Pawn) ||
  (king_offsets.any fun d => hit_enemy b opp (off king_pos d) .King)

/-- `board.rs::add_pawn_move`: on the last rank a pawn move fans out into the
four promotions, otherwise it is emitted with `promotion = none`. -/
def add_pawn_move (src dst : Nat × Nat) (color : Color) : List Move :=
  if (color = .White ∧ dst.1 = 0) ∨ (color = .Black ∧ dst.1 = 7) then
    [⟨src, dst, some .Queen⟩, ⟨src, dst, some .Rook⟩,
     ⟨src, dst, some .Bishop⟩, ⟨src, dst, some .Knight⟩]
  else
    [⟨src, dst, none⟩]

/-- The `direction` local of `generate_pawn_moves`. -/
def pawn_dir (color : Color) : Int := if color = .White then -1 else 1

/-- The `start_row` local of `generate_pawn_moves`. -/
def pawn_start_row (color : Color) : Nat := if color = .White then 6 else 1

/-- The forward block of `generate_pawn_moves`: single push when the square
ahead is free, double push from the start row when that square is also
free. -/
def pawn_forward_moves (b : Board) (pos : Nat × Nat) (color : Color) : List Move :=
  match off pos (pawn_dir color, 0) with
  | some fwd =>
    if b.get_piece fwd = none then
      add_pawn_move pos fwd color ++
      (if pos.1 = pawn_start_row color then
        match off pos (2 * pawn_dir color, 0) with
        | some dbl => if b.get_piece dbl = none then add_pawn_move pos dbl color else []
        | none => []
      else [])
    else []
  | none => []

/-- The `capture` closure of `generate_pawn_moves`: ordinary diagonal
capture, or the en-passant push when the diagonal is empty and matches the
recorded target. -/
def pawn_capture_moves (b : Board) (pos : Nat × Nat) (color : Color)
    (col_offset : Int) : List Move :=
  match off pos (pawn_dir color, col_offset) with
  | some dst =>
    match b.get_piece dst with
    | some target => if target.color ≠ color then add_pawn_move pos dst color else []
    | none =>
      match b.en_passant_target with
      | some ep => if dst = ep then [⟨pos, dst, none⟩] else []
      | none => []
  | none => []

/-- `board.rs::generate_pawn_moves`: forward pushes, then the two diagonal
columns, in Rust order. -/
def generate_pawn_moves (b : Board) (pos : Nat × Nat) (color : Color) : List Move :=
  pawn_forward_moves b pos color ++
    pawn_capture_moves b pos color (-1) ++ pawn_capture_moves b pos color 1

/-- One ray of `generate_sliding_moves`, with the same walk shape as
`ray_attacked`. -/
def slide (b : Board) (pos : Nat × Nat) (pc : Color) (d : Int × Int) : Int → Int → Nat → List Move
  | _, _, 0 => []
  | r, c, fuel + 1 =>
    if 0 ≤ r ∧ r < 8 ∧ 0 ≤ c ∧ c < 8 then
      let tp : Nat × Nat := (r.toNat, c.toNat)
      match b.get_piece tp with
      | some target => if target.color ≠ pc then [⟨pos, tp, none⟩] else []
      | none => ⟨pos, tp, none⟩ :: slide b pos pc d (r + d.1) (c + d.2) fuel
    else []

/-- `board.rs::generate_sliding_moves`.  The Rust code unwraps the moving
piece at `pos`; callers always pass an occupied square, and the empty case is
modelled as producing no move. -/
def generate_sliding_moves (b : Board) (pos : Nat × Nat) (dirs : List (Int × Int)) : List Move :=
  match b.get_piece pos with
  | none => []
  | some piece =>
    dirs.flatMap fun d =>
      slide b pos piece.color d ((pos.1 : Int) + d.1) ((pos.2 : Int) + d.2) 8

/-- `board.rs::generate_knight_moves` (same unwrap convention as sliding). -/
def generate_knight_moves (b : Board) (pos : Nat × Nat) : List Move :=
  match b.get_piece pos with
  | none => []
  | some piece =>
    knight_offsets.flatMap fun d =>
      match off pos d with
      | some tp =>
        match b.get_piece tp with
        | some target => if target.color ≠ piece.color then [⟨pos, tp, none⟩] else []
        | none => [⟨pos, tp, none⟩]
      | none => []

/-- `board.rs::is_valid_castling`, transcribed clause for clause. -/
def Board.is_valid_castling (b : Board) (mv : Move) : Bool :=
  let fr := mv.from'
  let dst := mv.to'
  if fr.1 ≠ dst.1 then false else
  match b.get_piece fr with
  | none => false
  | some king =>
    if king.piece_type ≠ .King then false else
    let king_bad : Bool :=
      match king.color with
      | .White => b.white_king_moved || fr.1 != 7 || fr.2 != 4
      | .Black => b.black_king_moved || fr.1 != 0 || fr.2 != 4
    if king_bad then false else
    let side : Option (Nat × Bool) :=
      if dst.2 = 6 then
        some (7, match king.color with
          | .White => b.white_rook_h_moved
          | .Black => b.black_rook_h_moved)
      else if dst.2 = 2 then
        some (0, match king.color with
          | .White => b.white_rook_a_moved
          | .Black => b.black_rook_a_moved)
      else none
    match side with
    | none => false
    | some (rook_col, rook_moved) =>
      if rook_moved then false else
      match b.get_piece (fr.1, rook_col) with
      | none => false
      | some rook =>
        if rook.piece_type ≠ .Rook ∨ rook.color ≠ king.color then false else
        let lo := min fr.2 dst.2
        let hi := max fr.2 dst.2
        if ¬ ((List.range' (lo + 1) (hi - lo - 1)).all fun col =>
              b.get_piece (fr.1, col) = none) then false else
        if dst.2 = 2 ∧ rook_col = 0 ∧ b.get_piece (fr.1, 1) ≠ none then false else
        if b.is_in_check king.color then false else
        let intermediate_col : Nat := if dst.2 = 6 then 5 else 3
        let temp := (b.set_piece fr none).set_piece (fr.1, intermediate_col) (some king)
        if temp.is_in_check king.color then false else
        let fin := (b.set_piece fr none).set_piece (fr.1, dst.2) (some king)
        if fin.is_in_check king.color then false else
        true

/-- `board.rs::generate_king_moves`: the eight adjacent squares, then the two
castling candidates guarded by `is_valid_castling`. -/
def generate_king_moves (b : Board) (pos : Nat × Nat) (color : Color) : List Move :=
  let regular := king_offsets.flatMap fun d =>
    match off pos d with
    | some tp =>
      match b.get_piece tp with
      | some target => if target.color ≠ color then [⟨pos, tp, none⟩] else []
      | none => [⟨pos, tp, none⟩]
    | none => []
  let castles :=
    if ¬ b.is_in_check color then
      match color with
      | .White =>
        if ¬ b.white_king_moved ∧ pos.1 = 7 ∧ pos.2 = 4 then
          (if ¬ b.white_rook_h_moved ∧ b.is_valid_castling ⟨pos, (7, 6), none⟩ then
            [⟨pos, (7, 6), none⟩] else []) ++
          (if ¬ b.white_rook_a_moved ∧ b.is_valid_castling ⟨pos, (7, 2), none⟩ then
            [⟨pos, (7, 2), none⟩] else [])
        else []
      | .Black =>
        if ¬ b.black_king_moved ∧ pos.1 = 0 ∧ pos.2 = 4 then
          (if ¬ b.black_rook_h_moved ∧ b.is_valid_castling ⟨pos, (0, 6), none⟩ then
            [⟨pos, (0, 6), none⟩] else []) ++
          (if ¬ b.black_rook_a_moved ∧ b.is_valid_castling ⟨pos, (0, 2), none⟩ then
            [⟨pos, (0, 2), none⟩] else [])
        else []
    else []
  regular ++ castles

def rook_directions : List (Int × Int) := [(0, 1), (0, -1), (1, 0), (-1, 0)]

def bishop_directions : List (Int × Int) := [(1, 1), (1, -1), (-1, 1), (-1, -1)]

def queen_directions : List (Int × Int) :=
  [(0, 1), (0, -1), (1, 0), (-1, 0), (1, 1), (1, -1), (-1, 1), (-1, -1)]

def generate_piece_moves (b : Board) (pos : Nat × Nat) (piece : Piece) : List Move :=
  match piece.piece_type with
  | .Pawn => generate_pawn_moves b pos piece.color
  | .Rook => generate_sliding_moves b pos rook_directions
  | .Bishop => generate_sliding_moves b pos bishop_directions
  | .Queen => generate_sliding_moves b pos queen_directions
  | .Knight => generate_knight_moves b pos
  | .King => generate_king_moves b pos piece.color

/-- The loop body of `generate_raw_moves`: the moves contributed by one
square, when it holds a piece of the side to move. -/
def square_moves (b : Board) (color : Color) (row col : Nat) : List Move :=
  match b.get_piece (row, col) with
  | some piece => if piece.color = color then generate_piece_moves b (row, col) piece else []
  | none => []

/-- `board.rs::generate_raw_moves`: all pseudo-legal moves, scanning the
squares row-major as the Rust loops do. -/
def Board.generate_raw_moves (b : Board) (color : Color) : List Move :=
  (List.range 8).flatMap fun row =>
    (List.range 8).flatMap fun col => square_moves b color row col

/-- `board.rs::generate_moves`: pseudo-legal moves filtered by the
clone-apply-check legality test. -/
def Board.generate_moves (b : Board) (color : Color) : List Move :=
  (b.generate_raw_moves color).filter fun mv =>
    ¬ ((b.make_move mv).2.is_in_check color)

/-- `ChessAI::piece_value`; the same values appear inline in
`material_evaluation`. -/
def piece_value : PieceType → Int
  | .Pawn => 100
  | .Knight => 320
  | .Bishop => 330
  | .Rook => 500
  | .Queen => 900
  | .King => 20000

def Board.material_evaluation (b : Board) : Int :=
  (List.range 8).foldl (fun score row =>
    (List.range 8).foldl (fun score col =>
      match b.get_piece (row, col) with
      | some piece =>
        match piece.color with
        | .White => score + piece_value piece.piece_type
        | .Black => score - piece_value piece.piece_type
      | none => score) score) 0

def pawn_table : List (List Int) :=
  [[0, 0, 0, 0, 0, 0, 0, 0],
   [50, 50, 50, 50, 50, 50, 50, 50],
   [10, 10, 20, 30, 30, 20, 10, 10],
   [5, 5, 10, 25, 25, 10, 5, 5],
   [0, 0, 0, 20, 20, 0, 0, 0],
   [5, -5, -10, 0, 0, -10, -5, 5],
   [5, 10, 10, -20, -20, 10, 10, 5],
   [0, 0, 0, 0, 0, 0, 0, 0]]

def knight_table : List (List Int) :=
  [[-50, -40, -30, -30, -30, -30, -40, -50],
   [-40, -20, 0, 0, 0, 0, -20, -40],
   [-30, 0, 10, 15, 15, 10, 0, -30],
   [-30, 5, 15, 20, 20, 15, 5, -30],
   [-30, 0, 15, 20, 20, 15, 0, -30],
   [-30, 5, 10, 15, 15, 10, 5, -30],
   [-40, -20, 0, 5, 5, 0, -20, -40],
   [-50, -40, -30, -30, -30, -30, -40, -50]]

def table_at (t : List (List Int)) (row col : Nat) : Int :=
  (t.getD row []).getD col 0

def Board.positional_evaluation (b : Board) : Int :=
  (List.range 8).foldl (fun score row =>
    (List.range 8).foldl (fun score col =>
      match b.get_piece (row, col) with
      | some piece =>
        let position_bonus :=
          match piece.piece_type with
          | .Pawn =>
            if piece.color = .White then table_at pawn_table (7 - row) col
            else table_at pawn_table row col
          | .Knight =>
            if piece.color = .White then table_at knight_table (7 - row) col
            else table_at knight_table row col
          | _ => 0
        match piece.color with
        | .White => score + position_bonus
        | .Black => score - position_bonus
      | none => score) score) 0

def Board.king_safety_evaluation (b : Board) : Int :=
  (if b.is_in_check .White then -50 else 0) + (if b.is_in_check .Black then 50 else 0)

def Board.mobility_evaluation (b : Board) : Int :=
  ((b.generate_moves .White).length - (b.generate_moves .Black).length : Int) * 5

/-- `ai.rs::Board::evaluate`: material + position + king safety + mobility. -/
def Board.evaluate (b : Board) : Int :=
  b.material_evaluation + b.positional_evaluation +
    b.king_safety_evaluation + b.mobility_evaluation

inductive NodeType where
  | Exact | LowerBound | UpperBound
deriving DecidableEq, Repr

structure TranspositionEntry where
  depth : Nat
  score : Int
  best_move : Option Move
  node_type : NodeType
deriving Repr

/-- `ai.rs::ChessAI`.  `time_limit` does not appear: the clock is modelled by
the oracle (see the header comment), which already answers every comparison
against `time_limit`.  The Zobrist tables are construction parameters. -/
structure ChessAI where
  max_depth : Nat
  transposition_table : List (Nat × TranspositionEntry)
  nodes_searched : Nat
  zobrist_pieces : Nat → Nat → Nat → Nat
  zobrist_castling : Nat → Nat

def piece_type_index : PieceType → Nat
  | .Pawn => 0
  | .Rook => 1
  | .Knight => 2
  | .Bishop => 3
  | .Queen => 4
  | .King => 5

def color_index : Color → Nat
  | .White => 0
  | .Black => 1

/-- `ChessAI::get_board_hash`: xor of the piece values of every occupied
square, then the four castling values, each guarded by the flag the Rust code
actually reads (king-moved and a-rook-moved for both sides; the h-rook flags
are not consulted). -/
def get_board_hash (ai : ChessAI) (b : Board) : Nat :=
  let hash := (List.range 8).foldl (fun hash row =>
    (List.range 8).foldl (fun hash col =>
      match b.get_piece (row, col) with
      | some piece =>
        hash ^^^ ai.zobrist_pieces (row * 8 + col)
          (piece_type_index piece.piece_type) (color_index piece.color)
      | none => hash) hash) 0
  let hash := if ¬ b.white_king_moved then hash ^^^ ai.zobrist_castling 0 else hash
  let hash := if ¬ b.white_rook_a_moved then hash ^^^ ai.zobrist_castling 1 else hash
  let hash := if ¬ b.black_king_moved then hash ^^^ ai.zobrist_castling 2 else hash
  if ¬ b.black_rook_a_moved then hash ^^^ ai.zobrist_castling 3 else hash

/-- `HashMap::insert`: replace any entry with the same key. -/
def tt_insert (tt : List (Nat × TranspositionEntry)) (h : Nat) (e : TranspositionEntry) :
    List (Nat × TranspositionEntry) :=
  (h, e) :: tt.filter fun p => p.1 != h

/-- The additive heuristic of `ChessAI::advanced_move_ordering`.  The Rust
code unwraps the piece on the source square; the `none` case is unreachable
for generated moves and is modelled as score 0. -/
def move_order_score (ai : ChessAI) (b : Board) (mv : Move) : Int :=
  match b.get_piece mv.from' with
  | none => 0
  | some mover =>
    let s1 : Int :=
      match ai.transposition_table.lookup (get_board_hash ai b) with
      | some entry => if entry.best_move = some mv then 10000 else 0
      | none => 0
    let s2 : Int :=
      match b.get_piece mv.to' with
      | some victim => piece_value victim.piece_type * 10 - piece_value mover.piece_type
      | none => 0
    let temp := (b.make_move mv).2
    let s3 : Int := if temp.is_in_check mover.color.opposite then 500 else 0
    let s4 : Int :=
      if mover.piece_type = .King ∧ ((mv.to'.2 : Int) - (mv.from'.2 : Int)).natAbs = 2
      then 300 else 0
    let s5 : Int :=
      match mv.to' with
      | (3, 3) | (3, 4) | (4, 3) | (4, 4) => 50
      | (2, 2) | (2, 3) | (2, 4) | (2, 5) | (3, 2) | (3, 5) | (4, 2) | (4, 5)
      | (5, 2) | (5, 3) | (5, 4) | (5, 5) => 20
      | _ => 0
    s1 + s2 + s3 + s4 + s5

/-- Stable insertion into a list that is already sorted by `key` ascending:
the new element goes after every element whose key is less than or equal. -/
def insert_sorted (key : Move → Int) (x : Move) : List Move → List Move
  | [] => [x]
  | y :: ys => if key y ≤ key x then y :: insert_sorted key x ys else x :: y :: ys

/-- Stable sort ascending by `key` (insertion sort).  `sort_by_cached_key`
computes each key once and performs a stable ascending sort; with a pure key
function the result coincides. -/
def sort_by_key (key : Move → Int) (l : List Move) : List Move :=
  l.foldl (fun acc x => insert_sorted key x acc) []

/-- `ChessAI::advanced_move_ordering`: the Rust key is the negated heuristic
score, so the sort is descending in the score, stable. -/
def advanced_move_ordering (ai : ChessAI) (b : Board) (moves : List Move) : List Move :=
  sort_by_key (fun mv => -(move_order_score ai b mv)) moves

def int32_min : Int := -2147483648

def int32_max : Int := 2147483647

/-- The move loop of `minimax_with_tt`: `child` is the recursive search one
ply deeper (already negated `maximizing`).  Returns
(best_score, alpha, beta, best_move, ai, clock). -/
def ab_loop (child : Board → Int → Int → ChessAI → Nat → Int × ChessAI × Nat)
    (maximizing : Bool) (b : Board) :
    List Move → Int → Int → Int → Option Move → ChessAI → Nat →
      Int × Int × Int × Option Move × ChessAI × Nat
  | [], alpha, beta, best, bestMv, ai, k => (best, alpha, beta, bestMv, ai, k)
  | mv :: rest, alpha, beta, best, bestMv, ai, k =>
    let nb := (b.make_move mv).2
    let r := child nb alpha beta ai k
    let score := r.1
    let ai := r.2.1
    let k := r.2.2
    if maximizing then
      let best' := if score > best then score else best
      let bestMv' := if score > best then some mv else bestMv
      let alpha := max alpha score
      if beta ≤ alpha then (best', alpha, beta, bestMv', ai, k)
      else ab_loop child maximizing b rest alpha beta best' bestMv' ai k
    else
      let best' := if score < best then score else best
      let bestMv' := if score < best then some mv else bestMv
      let beta := min beta score
      if beta ≤ alpha then (best', alpha, beta, bestMv', ai, k)
      else ab_loop child maximizing b rest alpha beta best' bestMv' ai k

/-- The part of `minimax_with_tt` below the transposition probe: terminal
tests, move ordering, the alpha-beta loop and the store. -/
def minimax_body (child : Board → Int → Int → ChessAI → Nat → Int × ChessAI × Nat)
    (b : Board) (depth : Nat) (board_hash : Nat) (alpha beta : Int) (maximizing : Bool)
    (ai : ChessAI) (k : Nat) : Int × ChessAI × Nat :=
  let color := if maximizing then Color.White else Color.Black
  let moves := b.generate_moves color
  if moves.isEmpty then
    if b.is_in_check color then
      (if maximizing then -100000 + (depth : Int) else 100000 - (depth : Int), ai, k)
    else (0, ai, k)
  else
    let moves := advanced_move_ordering ai b moves
    let original_alpha := alpha
    let init_best : Int := if maximizing then int32_min else int32_max
    let r := ab_loop child maximizing b moves alpha beta init_best none ai k
    let best_score := r.1
    let beta := r.2.2.1
    let best_move := r.2.2.2.1
    let ai := r.2.2.2.2.1
    let k := r.2.2.2.2.2
    let node_type :=
      if best_score ≤ original_alpha then NodeType.UpperBound
      else if best_score ≥ beta then NodeType.LowerBound
      else NodeType.Exact
    let tt' := tt_insert ai.transposition_table board_hash
      ⟨depth, best_score, best_move, node_type⟩
    let ai := { ai with transposition_table := tt' }
    (best_score, ai, k)

/-- `ChessAI::minimax_with_tt`, clock oracle threaded through in program
order: the time check, the node counter, the depth-0 leaf, the transposition
probe, then `minimax_body`. -/
def minimax_with_tt (o : Nat → Bool) (depth : Nat) (b : Board) (alpha beta : Int)
    (maximizing : Bool) (ai : ChessAI) (k : Nat) : Int × ChessAI × Nat :=
  if o k then (b.evaluate, ai, k + 1) else
  let k := k + 1
  let ai := { ai with nodes_searched := ai.nodes_searched + 1 }
  match depth with
  | 0 => (b.evaluate, ai, k)
  | d + 1 =>
    let board_hash := get_board_hash ai b
    let child := fun b' a' b'' ai' k' => minimax_with_tt o d b' a' b'' (!maximizing) ai' k'
    match ai.transposition_table.lookup board_hash with
    | some entry =>
      if entry.depth ≥ d + 1 then
        match entry.node_type with
        | .Exact => (entry.score, ai, k)
        | .LowerBound =>
          let alpha := max alpha entry.score
          if alpha ≥ beta then (entry.score, ai, k)
          else minimax_body child b (d + 1) board_hash alpha beta maximizing ai k
        | .UpperBound =>
          let beta := min beta entry.score
          if alpha ≥ beta then (entry.score, ai, k)
          else minimax_body child b (d + 1) board_hash alpha beta maximizing ai k
      else minimax_body child b (d + 1) board_hash alpha beta maximizing ai k
    | none => minimax_body child b (d + 1) board_hash alpha beta maximizing ai k

/-- The root move loop of `ChessAI::search_depth`: per move one time check,
then the minimax call; the best move is replaced only on strict
improvement for the searching side. -/
def root_loop (o : Nat → Bool) (depth : Nat) (b : Board) (color : Color) :
    List Move → Int → Move → ChessAI → Nat → Move × ChessAI × Nat
  | [], _, bestMv, ai, k => (bestMv, ai, k)
  | mv :: rest, best, bestMv, ai, k =>
    if o k then (bestMv, ai, k + 1) else
    let k := k + 1
    let nb := (b.make_move mv).2
    let r := minimax_with_tt o (depth - 1) nb int32_min int32_max (color = Color.Black) ai k
    let score := r.1
    let ai := r.2.1
    let k := r.2.2
    if (color = Color.White ∧ score > best) ∨ (color = Color.Black ∧ score < best) then
      root_loop o depth b color rest score mv ai k
    else
      root_loop o depth b color rest best bestMv ai k

/-- `ChessAI::search_depth`.  The sorted list of a nonempty list is nonempty,
so the inner `[]` case is unreachable; it mirrors Rust only in that the Rust
code would index `moves[0]` there. -/
def search_depth (o : Nat → Bool) (ai : ChessAI) (k : Nat) (b : Board) (depth : Nat)
    (color : Color) : Option Move × ChessAI × Nat :=
  let moves := b.generate_moves color
  if moves.isEmpty then (none, ai, k)
  else
    match advanced_move_ordering ai b moves with
    | [] => (none, ai, k)
    | m0 :: rest =>
      let init : Int := if color = Color.White then int32_min else int32_max
      let r := root_loop o depth b color (m0 :: rest) init m0 ai k
      (some r.1, r.2.1, r.2.2)

/-- The `for depth in 1..=max_depth` loop of `iterative_deepening`: guard
check, reset of the node counter, one `search_depth`, and on a `Some` result
the replacement of the best move followed by the half-budget check. -/
def id_loop (o : Nat → Bool) (b : Board) (color : Color) :
    List Nat → Option Move → ChessAI → Nat → Option Move × ChessAI × Nat
  | [], best, ai, k => (best, ai, k)
  | d :: rest, best, ai, k =>
    if o k then (best, ai, k + 1) else
    let k := k + 1
    let ai := { ai with nodes_searched := 0 }
    let r := search_depth o ai k b d color
    let ai := r.2.1
    let k := r.2.2
    match r.1 with
    | some mv =>
      if o k then (some mv, ai, k + 1)
      else id_loop o b color rest (some mv) ai (k + 1)
    | none => id_loop o b color rest best ai k

/-- `ChessAI::iterative_deepening`: clear the transposition table when it has
grown past 100000 entries, then deepen from 1 to `max_depth`. -/
def iterative_deepening (o : Nat → Bool) (ai : ChessAI) (b : Board) (color : Color) :
    Option Move × ChessAI × Nat :=
  let ai := if ai.transposition_table.length > 100000
    then { ai with transposition_table := [] } else ai
  id_loop o b color (List.range' 1 ai.max_depth) none ai 0

/-- `ChessAI::get_best_move`. -/
def get_best_move (o : Nat → Bool) (ai : ChessAI) (b : Board) (color : Color) :
    Option Move × ChessAI × Nat :=
  iterative_deepening o ai b color

/-- The transposition-table housekeeping at the head of `iterative_deepening`,
as its own function: the Rust code clears the table once it has grown past
100000 entries, and otherwise keeps the engine state unchanged. -/
def tt_clear (ai : ChessAI) : ChessAI :=
  if ai.transposition_table.length > 100000
  then { ai with transposition_table := [] } else ai

/-! Concrete instances used by witnesses and counterexamples. -/

/-- Oracle of a run whose time budget is never exhausted. -/
def o_false : Nat → Bool := fun _ => false

/-- Oracle of a run whose clock passes the time limit just before the 18th
elapsed-time comparison (index 17); time is monotone, so the answer stays
true afterwards. -/
def oC3 : Nat → Bool := fun n => 17 ≤ n

/-- A sample Zobrist piece table (a Weyl sequence of distinct 64-bit values);
`init_zobrist` draws its values from a hasher, and the design fixes no
particular values. -/
def z_pieces : Nat → Nat → Nat → Nat :=
  fun sq pt c => ((sq * 12 + pt * 2 + c + 1) * 11400714819323198485) % (2 ^ 64)

/-- Sample castling-rights values, same construction. -/
def z_castling : Nat → Nat :=
  fun i => ((777 + i) * 11400714819323198485) % (2 ^ 64)

def ai_d1 : ChessAI := ⟨1, [], 0, z_pieces, z_castling⟩

def ai_d2 : ChessAI := ⟨2, [], 0, z_pieces, z_castling⟩

/-- `ChessAI::new(0)` sets `max_depth = 0` (and the default 1000 ms budget). -/
def ai_depth0 : ChessAI := ⟨0, [], 0, z_pieces, z_castling⟩

/-- White king e4, black pawn f4 (undefended, capturable only by the king),
black king a8.  The capture scores worst in the move-ordering heuristic
(victim*10 - king value) yet best in the depth-1 evaluation. -/
def bC3 : Board :=
  { squares := fun q =>
      if q = (4, 4) then some ⟨.King, .White⟩
      else if q = (4, 5) then some ⟨.Pawn, .Black⟩
      else if q = (0, 0) then some ⟨.King, .Black⟩
      else none
    white_king_pos := (4, 4)
    black_king_pos := (0, 0)
    white_king_moved := true
    black_king_moved := true
    white_rook_a_moved := true
    white_rook_h_moved := true
    black_rook_a_moved := true
    black_rook_h_moved := true
    en_passant_target := none }

/-- The checkmate fixture of the ai.rs tests: black king a8, white queen a7,
white king b6; Black to move has no legal moves and is in check. -/
def bMate : Board :=
  { squares := fun q =>
      if q = (0, 0) then some ⟨.King, .Black⟩
      else if q = (1, 0) then some ⟨.Queen, .White⟩
      else if q = (2, 1) then some ⟨.King, .White⟩
      else none
    white_king_pos := (2, 1)
    black_king_pos := (0, 0)
    white_king_moved := true
    black_king_moved := true
    white_rook_a_moved := true
    white_rook_h_moved := true
    black_rook_a_moved := true
    black_rook_h_moved := true
    en_passant_target := none }

/-- A stalemate fixture: black king a8, white queen c7, white king h1; Black
to move has no legal moves and is not in check. -/
def bStale : Board :=
  { squares := fun q =>
      if q = (0, 0) then some ⟨.King, .Black⟩
      else if q = (1, 2) then some ⟨.Queen, .White⟩
      else if q = (7, 7) then some ⟨.King, .White⟩
      else none
    white_king_pos := (7, 7)
    black_king_pos := (0, 0)
    white_king_moved := true
    black_king_moved := true
    white_rook_a_moved := true
    white_rook_h_moved := true
    black_rook_a_moved := true
    black_rook_h_moved := true
    en_passant_target := none }

/-- A pinned promotion: the white pawn a7 may pseudo-legally capture the
knight b8 (promoting), but the move exposes the white king on the a-file to
the rook a8, so the legality filter removes all four promotions. -/
def bPin : Board :=
  { squares := fun q =>
      if q = (0, 0) then some ⟨.Rook, .Black⟩
      else if q = (0, 1) then some ⟨.Knight, .Black⟩
      else if q = (1, 0) then some ⟨.Pawn, .White⟩
      else if q = (4, 0) then some ⟨.King, .White⟩
      else if q = (7, 7) then some ⟨.King, .Black⟩
      else none
    white_king_pos := (4, 0)
    black_king_pos := (7, 7)
    white_king_moved := true
    black_king_moved := true
    white_rook_a_moved := true
    white_rook_h_moved := true
    black_rook_a_moved := true
    black_rook_h_moved := true
    en_passant_target := none }

/-- Two adjacent kings (not a position reachable in legal play): the white
king may capture the black king under the generator rules. -/
def bKK : Board :=
  { squares := fun q =>
      if q = (4, 4) then some ⟨.King, .White⟩
      else if q = (4, 5) then some ⟨.King, .Black⟩
      else none
    white_king_pos := (4, 4)
    black_king_pos := (4, 5)
    white_king_moved := true
    black_king_moved := true
    white_rook_a_moved := true
    white_rook_h_moved := true
    black_rook_a_moved := true
    black_rook_h_moved := true
    en_passant_target := none }

/-- The initial position with f1 and g1 cleared, so white king-side castling
is available and generated. -/
def bCastle : Board := (Board.new.set_piece (7, 5) none).set_piece (7, 6) none

/-- The initial position with only the white h-rook moved-flag raised. -/
def bNewH : Board := { Board.new with white_rook_h_moved := true }

/-- Both king-square caches point at real kings and every king of each color
sits on its cached square; this is the one-king-per-side-plus-cache
invariant of the design (flags play no part in it). -/
def king_invariant (b : Board) : Prop :=
  b.white_king_pos.1 < 8 ∧ b.white_king_pos.2 < 8 ∧
  b.black_king_pos.1 < 8 ∧ b.black_king_pos.2 < 8 ∧
  b.get_piece b.white_king_pos = some ⟨.King, .White⟩ ∧
  b.get_piece b.black_king_pos = some ⟨.King, .Black⟩ ∧
  ∀ r, r < 8 → ∀ c, c < 8 →
    (b.get_piece (r, c) = some ⟨.King, .White⟩ → (r, c) = b.white_king_pos) ∧
    (b.get_piece (r, c) = some ⟨.King, .Black⟩ → (r, c) = b.black_king_pos)

instance (b : Board) : Decidable (king_invariant b) := by
  unfold king_invariant; infer_instance

def king_moved_flag (b : Board) : Color → Bool
  | .White => b.white_king_moved
  | .Black => b.black_king_moved

def rook_a_flag (b : Board) : Color → Bool
  | .White => b.white_rook_a_moved
  | .Black => b.black_rook_a_moved

def rook_h_flag (b : Board) : Color → Bool
  | .White => b.white_rook_h_moved
  | .Black => b.black_rook_h_moved

/-- Modelled from the spec wording for the hash: the exclusive-or of every
occupied square's piece value (this is the same fold the code performs). -/
def spec_piece_hash (ai : ChessAI) (b : Board) : Nat :=
  (List.range 8).foldl (fun hash row =>
    (List.range 8).foldl (fun hash col =>
      match b.get_piece (row, col) with
      | some piece =>
        hash ^^^ ai.zobrist_pieces (row * 8 + col)
          (piece_type_index piece.piece_type) (color_index piece.color)
      | none => hash) hash) 0

/-- The castling contribution the code folds in: one value per flag still in
its initial state, for the four flags the code reads (king-moved and
a-rook-moved of both sides). -/
def spec_castling_hash (ai : ChessAI) (b : Board) : Nat :=
  (if ¬ b.white_king_moved then ai.zobrist_castling 0 else 0) ^^^
  (if ¬ b.white_rook_a_moved then ai.zobrist_castling 1 else 0) ^^^
  (if ¬ b.black_king_moved then ai.zobrist_castling 2 else 0) ^^^
  (if ¬ b.black_rook_a_moved then ai.zobrist_castling 3 else 0)

/-- The moves of a list whose source and destination match the given pair
(used to count what the generators emit for one from/to pair). -/
def moves_to (l : List Move) (src dst : Nat × Nat) : List Move :=
  l.filter fun mv => mv.from' = src ∧ mv.to' = dst

/-- The promotion-independent part of `make_move` for a pawn move from `ps`
to `q` (en-passant bookkeeping and the en-passant capture removal); the
decomposition is proved against `make_move` in `make_move_pawn_promotion`. -/
def pawn_move_interim (b : Board) (ps q : Nat × Nat) (c : Color) : Board :=
  let b := { b with en_passant_target := none }
  let ep_row : Nat := if c = .White then ps.1 - 1 else ps.1 + 1
  let b :=
    if ((q.1 : Int) - (ps.1 : Int)).natAbs = 2 then
      { b with en_passant_target := some (ep_row, ps.2) }
    else b
  if (ps.2 != q.2) && (b.get_piece q).isNone then
    b.set_piece (ps.1, q.2) none
  else b

/-- The promoted-or-plain piece a pawn move finally places. -/
def pawn_final_piece (mv : Move) (piece : Piece) : Piece :=
  if (piece.color = .White ∧ mv.to'.1 = 0) ∨ (piece.color = .Black ∧ mv.to'.1 = 7)
  then ⟨mv.promotion.getD .Queen, piece.color⟩ else piece

/-- A free white promotion: pawn a7 can push to the empty a8; the kings are
far away. -/
def bProm : Board :=
  { squares := fun q =>
      if q = (1, 0) then some ⟨.Pawn, .White⟩
      else if q = (7, 7) then some ⟨.King, .White⟩
      else if q = (5, 5) then some ⟨.King, .Black⟩
      else none
    white_king_pos := (7, 7)
    black_king_pos := (5, 5)
    white_king_moved := true
    black_king_moved := true
    white_rook_a_moved := true
    white_rook_h_moved := true
    black_rook_a_moved := true
    black_rook_h_moved := true
    en_passant_target := none }

/-! Theorems. -/

/-- C1: every move returned by `generate_moves(side)`, when applied by
`make_move` to a clone of the board, yields a position in which
`is_in_check(side)` is false: the legality filter of `generate_moves` is
exactly this clone-apply-check test. -/
theorem generate_moves_never_leave_self_check (b : Board) (color : Color) (mv : Move)
    (h : mv ∈ b.generate_moves color) :
    ((b.make_move mv).2).is_in_check color = false := by
  unfold Board.generate_moves at h
  rw [List.mem_filter] at h
  simpa using h.2

/-- Witness for C1 at a concrete input: the white king step e4-e5 on `bC3`
is generated and leaves White out of check. -/
theorem generate_moves_never_leave_self_check_witness :
    ((bC3.make_move ⟨(4, 4), (3, 4), none⟩).2).is_in_check .White = false :=
  generate_moves_never_leave_self_check bC3 .White ⟨(4, 4), (3, 4), none⟩ (by decide)

/-- C9: when the source square of the move is empty, `make_move` returns
false and the board is unchanged in every field (the guard runs before any
mutation). -/
theorem make_move_empty_source (b : Board) (mv : Move)
    (h : b.get_piece mv.from' = none) :
    b.make_move mv = (false, b) := by
  unfold Board.make_move
  rw [h]

/-- Witness for C9: square d5 of `bC3` is empty, and `make_move` from it
returns false with the very same board. -/
theorem make_move_empty_source_witness :
    bC3.make_move ⟨(3, 3), (3, 4), none⟩ = (false, bC3) :=
  make_move_empty_source bC3 ⟨(3, 3), (3, 4), none⟩ rfl

/-- C7: `evaluate` on the standard starting position returns exactly 0. -/
theorem evaluate_initial_position_is_zero : Board.new.evaluate = 0 := by decide

/-- Counterexample to C5 as stated: on a real generated king-side castling
move from the initial position (f1, g1 cleared), `make_move` relocates the
rook and sets the moved-king flag, but the moved-rook flag for the h-rook is
NOT set: the rook-flag branch of `make_move` fires only when the moved piece
itself is a rook leaving its home square. -/
theorem castling_does_not_set_rook_flag :
    bCastle.get_piece (7, 4) = some ⟨.King, .White⟩ ∧
    (⟨(7, 4), (7, 6), none⟩ : Move) ∈ bCastle.generate_moves .White ∧
    (bCastle.make_move ⟨(7, 4), (7, 6), none⟩).2.white_king_moved = true ∧
    (bCastle.make_move ⟨(7, 4), (7, 6), none⟩).2.get_piece (7, 5) =
      some ⟨.Rook, .White⟩ ∧
    (bCastle.make_move ⟨(7, 4), (7, 6), none⟩).2.white_rook_h_moved = false := by
  refine ⟨by decide, by decide, ?_, ?_, ?_⟩ <;> decide

/-- C5 amended: if the piece moved is a king standing on file 4 and the
destination is two files away on the same rank, `make_move` relocates the
matching rook (king side: file 7 to file 5; queen side: file 0 to file 3)
and sets the moved-king flag for that side, but it leaves both moved-rook
flags of that side unchanged (the claim asserted the moved-rook flag is also
set, which the counterexample refutes). -/
theorem make_move_castling_semantics (b : Board) (r : Nat) (col : Color) :
    (∀ rk, b.get_piece (r, 4) = some ⟨.King, col⟩ → b.get_piece (r, 7) = some rk →
      (b.make_move ⟨(r, 4), (r, 6), none⟩).2.get_piece (r, 5) = some rk ∧
      (b.make_move ⟨(r, 4), (r, 6), none⟩).2.get_piece (r, 7) = none ∧
      (b.make_move ⟨(r, 4), (r, 6), none⟩).2.get_piece (r, 6) = some ⟨.King, col⟩ ∧
      (b.make_move ⟨(r, 4), (r, 6), none⟩).2.get_piece (r, 4) = none ∧
      king_moved_flag (b.make_move ⟨(r, 4), (r, 6), none⟩).2 col = true ∧
      rook_h_flag (b.make_move ⟨(r, 4), (r, 6), none⟩).2 col = rook_h_flag b col ∧
      rook_a_flag (b.make_move ⟨(r, 4), (r, 6), none⟩).2 col = rook_a_flag b col) ∧
    (∀ rk, b.get_piece (r, 4) = some ⟨.King, col⟩ → b.get_piece (r, 0) = some rk →
      (b.make_move ⟨(r, 4), (r, 2), none⟩).2.get_piece (r, 3) = some rk ∧
      (b.make_move ⟨(r, 4), (r, 2), none⟩).2.get_piece (r, 0) = none ∧
      (b.make_move ⟨(r, 4), (r, 2), none⟩).2.get_piece (r, 2) = some ⟨.King, col⟩ ∧
      (b.make_move ⟨(r, 4), (r, 2), none⟩).2.get_piece (r, 4) = none ∧
      king_moved_flag (b.make_move ⟨(r, 4), (r, 2), none⟩).2 col = true ∧
      rook_h_flag (b.make_move ⟨(r, 4), (r, 2), none⟩).2 col = rook_h_flag b col ∧
      rook_a_flag (b.make_move ⟨(r, 4), (r, 2), none⟩).2 col = rook_a_flag b col) := by
  constructor <;> intro rk h1 h2 <;> simp only [Board.get_piece] at h1 h2 <;>
    cases col <;>
      simp [Board.make_move, Board.get_piece, Board.set_piece, h1, h2,
        king_moved_flag, rook_h_flag, rook_a_flag]

/-- Witness for the amended C5 on the concrete castling board. -/
theorem make_move_castling_semantics_witness :
    (bCastle.make_move ⟨(7, 4), (7, 6), none⟩).2.get_piece (7, 5) =
      some ⟨.Rook, .White⟩ ∧
    king_moved_flag (bCastle.make_move ⟨(7, 4), (7, 6), none⟩).2 .White = true ∧
    rook_h_flag (bCastle.make_move ⟨(7, 4), (7, 6), none⟩).2 .White =
      rook_h_flag bCastle .White := by
  have h := (make_move_castling_semantics bCastle 7 .White).1
    ⟨.Rook, .White⟩ (by decide) (by decide)
  exact ⟨h.1, h.2.2.2.2.1, h.2.2.2.2.2.1⟩

/-- Counterexample to C6 as stated: two boards with identical placement that
differ only in the moved-status of the white h-rook (a king-side castling
rook) receive the SAME hash — `get_board_hash` never reads the h-rook
flags, so the four castling values it folds in are guarded by the king-moved
and a-rook-moved flags only. -/
theorem hash_ignores_h_rook_flag :
    bNewH.squares = Board.new.squares ∧
    bNewH.white_rook_h_moved = true ∧
    Board.new.white_rook_h_moved = false ∧
    get_board_hash ai_d2 bNewH = get_board_hash ai_d2 Board.new :=
  ⟨rfl, rfl, rfl, rfl⟩

/-- C6 amended: `get_board_hash` is the xor of the piece value of every
occupied square with one castling value per still-initial flag among the
four flags the code reads (white king-moved, white a-rook-moved, black
king-moved, black a-rook-moved); consequently boards agreeing on placement
and on those four flags hash equally, and the h-rook moved-flags (the
king-side castling rooks) never influence the hash. -/
theorem get_board_hash_characterization (ai : ChessAI) (b : Board) :
    get_board_hash ai b = spec_piece_hash ai b ^^^ spec_castling_hash ai b ∧
    (∀ v w, get_board_hash ai
        { b with white_rook_h_moved := v, black_rook_h_moved := w } =
      get_board_hash ai b) ∧
    (∀ b', b'.squares = b.squares →
      b'.white_king_moved = b.white_king_moved →
      b'.white_rook_a_moved = b.white_rook_a_moved →
      b'.black_king_moved = b.black_king_moved →
      b'.black_rook_a_moved = b.black_rook_a_moved →
      get_board_hash ai b' = get_board_hash ai b) := by
  refine ⟨?_, fun v w => rfl, fun b' hsq h1 h2 h3 h4 => ?_⟩
  · unfold get_board_hash spec_piece_hash spec_castling_hash
    cases b.white_king_moved <;> cases b.white_rook_a_moved <;>
      cases b.black_king_moved <;> cases b.black_rook_a_moved <;>
        simp [Nat.xor_assoc]
  · unfold get_board_hash
    simp only [Board.get_piece, hsq, h1, h2, h3, h4]

/-- Witness for the amended C6: applied to the initial position, with the
congruence part discharged on the h-rook-flagged variant. -/
theorem get_board_hash_characterization_witness :
    get_board_hash ai_d2 Board.new =
      spec_piece_hash ai_d2 Board.new ^^^ spec_castling_hash ai_d2 Board.new ∧
    get_board_hash ai_d2 bNewH = get_board_hash ai_d2 Board.new :=
  ⟨(get_board_hash_characterization ai_d2 Board.new).1,
   (get_board_hash_characterization ai_d2 Board.new).2.2 bNewH rfl rfl rfl rfl rfl⟩

/-- The hash does not depend on the node counter (used to cross the counter
increment inside `minimax_with_tt`). -/
theorem get_board_hash_nodes (ai : ChessAI) (n : Nat) (b : Board) :
    get_board_hash { ai with nodes_searched := n } b = get_board_hash ai b := rfl

/-- Counterexample to C4 as stated: on the checkmate fixture of the ai.rs
tests (Black mated, White the mating side and maximizer), the node searched
with remaining depth 3 — i.e. the mate found one ply NEARER the root, the
faster mate — scores 99997, strictly below the 99998 of remaining depth 2.
The formula `100000 - depth` therefore makes shallower (faster) mates score
WORSE for the mating side, not better as the claim says. -/
theorem mate_score_prefers_deeper_mates :
    bMate.generate_moves .Black = [] ∧
    bMate.is_in_check .Black = true ∧
    (minimax_with_tt o_false 3 bMate int32_min int32_max false ai_d2 0).1 = 99997 ∧
    (minimax_with_tt o_false 2 bMate int32_min int32_max false ai_d2 0).1 = 99998 ∧
    (minimax_with_tt o_false 3 bMate int32_min int32_max false ai_d2 0).1 <
      (minimax_with_tt o_false 2 bMate int32_min int32_max false ai_d2 0).1 := by
  refine ⟨by decide, by decide, by decide, by decide, by decide⟩

/-- C4 amended: at a node that actually evaluates its move list (time budget
not yet exceeded, remaining depth positive, no transposition entry of
sufficient depth) and where the side to move has no legal moves,
`minimax_with_tt` returns exactly 0 when that side is not in check, and when
it is in check returns `-100000 + depth` (maximizing) or `100000 - depth`
(minimizing): magnitude above 90000 in the mating side's favor whenever the
remaining depth is at most 9999.  Contrary to the claim, this offset makes
mates with larger remaining depth (the faster mates) score worse for the
mating side, as the counterexample shows. -/
theorem minimax_no_moves_terminal (o : Nat → Bool) (b : Board) (d : Nat)
    (alpha beta : Int) (maximizing : Bool) (ai : ChessAI) (k : Nat)
    (hok : o k = false)
    (htt : ∀ e, ai.transposition_table.lookup (get_board_hash ai b) = some e →
      e.depth < d + 1)
    (hmoves : b.generate_moves (if maximizing then Color.White else Color.Black) = []) :
    (minimax_with_tt o (d + 1) b alpha beta maximizing ai k).1 =
      (if b.is_in_check (if maximizing then Color.White else Color.Black) then
        (if maximizing then -100000 + ((d + 1 : Nat) : Int)
         else 100000 - ((d + 1 : Nat) : Int))
      else 0) ∧
    (b.is_in_check (if maximizing then Color.White else Color.Black) = true →
      d + 1 ≤ 9999 →
      (if maximizing then
        (minimax_with_tt o (d + 1) b alpha beta maximizing ai k).1 < -90000
      else
        90000 < (minimax_with_tt o (d + 1) b alpha beta maximizing ai k).1)) := by
  have h1 : (minimax_with_tt o (d + 1) b alpha beta maximizing ai k).1 =
      (if b.is_in_check (if maximizing then Color.White else Color.Black) then
        (if maximizing then -100000 + ((d + 1 : Nat) : Int)
         else 100000 - ((d + 1 : Nat) : Int))
      else 0) := by
    unfold minimax_with_tt
    simp only [hok, Bool.false_eq_true, if_false]
    cases hlk : ai.transposition_table.lookup (get_board_hash ai b) with
    | none =>
      simp only [get_board_hash_nodes, hlk]
      unfold minimax_body
      simp [hmoves]
      rw [apply_ite (fun x : Int × ChessAI × Nat => x.1)]
    | some e =>
      have hd := htt e hlk
      simp only [get_board_hash_nodes, hlk]
      have hng : ¬ (e.depth ≥ d + 1) := by omega
      simp only [hng, if_false]
      unfold minimax_body
      simp [hmoves]
      rw [apply_ite (fun x : Int × ChessAI × Nat => x.1)]
  refine ⟨h1, fun hchk hle => ?_⟩
  rw [h1, if_pos hchk]
  cases maximizing with
  | true => simp only [if_true]; omega
  | false => simp only [Bool.false_eq_true, if_false]; omega

/-- Witness for the amended C4 at concrete inputs: the mate fixture gives
`100000 - 2 = 99998 > 90000`, the stalemate fixture gives exactly 0. -/
theorem minimax_no_moves_terminal_witness :
    (minimax_with_tt o_false 2 bMate int32_min int32_max false ai_d1 0).1 = 99998 ∧
    90000 < (minimax_with_tt o_false 2 bMate int32_min int32_max false ai_d1 0).1 ∧
    (minimax_with_tt o_false 2 bStale int32_min int32_max false ai_d1 0).1 = 0 := by
  have hm := minimax_no_moves_terminal o_false bMate 1 int32_min int32_max false ai_d1 0
    rfl (by intro e h; simp [List.lookup] at h) (by decide)
  have hs := minimax_no_moves_terminal o_false bStale 1 int32_min int32_max false ai_d1 0
    rfl (by intro e h; simp [List.lookup] at h) (by decide)
  refine ⟨?_, ?_, ?_⟩
  · rw [hm.1]; decide
  · have h2 := hm.2 (by decide) (by norm_num)
    simpa using h2
  · rw [hs.1]; decide

/-- Insertion keeps exactly the members of the list plus the new element. -/
theorem insert_sorted_mem (key : Move → Int) (x a : Move) (l : List Move) :
    a ∈ insert_sorted key x l ↔ a = x ∨ a ∈ l := by
  induction l with
  | nil => simp [insert_sorted]
  | cons y ys ih =>
    unfold insert_sorted
    split
    · simp only [List.mem_cons, ih]; try tauto
    · simp only [List.mem_cons]; try tauto

/-- Folding insertions accumulates exactly the members. -/
theorem sort_foldl_mem (key : Move → Int) (a : Move) :
    ∀ (l acc : List Move),
      (a ∈ l.foldl (fun acc x => insert_sorted key x acc) acc ↔ a ∈ acc ∨ a ∈ l) := by
  intro l
  induction l with
  | nil => intro acc; simp
  | cons x xs ih =>
    intro acc
    rw [List.foldl_cons, ih, insert_sorted_mem]
    simp only [List.mem_cons]
    tauto

/-- Move ordering is a permutation in the membership sense. -/
theorem advanced_move_ordering_mem (ai : ChessAI) (b : Board) (moves : List Move) (a : Move) :
    a ∈ advanced_move_ordering ai b moves ↔ a ∈ moves := by
  unfold advanced_move_ordering sort_by_key
  rw [sort_foldl_mem]
  simp

/-- The root loop returns either its incoming best move or a scanned move. -/
theorem root_loop_result_mem (o : Nat → Bool) (d : Nat) (b : Board) (color : Color) :
    ∀ (moves : List Move) (best : Int) (bm : Move) (ai : ChessAI) (k : Nat),
      (root_loop o d b color moves best bm ai k).1 = bm ∨
      (root_loop o d b color moves best bm ai k).1 ∈ moves := by
  intro moves
  induction moves with
  | nil => intro best bm ai k; left; rfl
  | cons mv rest ih =>
    intro best bm ai k
    unfold root_loop
    split
    · left; rfl
    · dsimp only
      split
      · rcases ih _ _ _ _ with h | h
        · right; rw [h]; exact List.mem_cons_self _ _
        · right; exact List.mem_cons_of_mem _ h
      · rcases ih _ _ _ _ with h | h
        · left; exact h
        · right; exact List.mem_cons_of_mem _ h

/-- `search_depth` answers `none` precisely on an empty legal-move list. -/
theorem search_depth_none_iff (o : Nat → Bool) (ai : ChessAI) (k : Nat) (b : Board)
    (d : Nat) (color : Color) :
    ((search_depth o ai k b d color).1 = none ↔ b.generate_moves color = []) := by
  unfold search_depth
  cases hm : b.generate_moves color with
  | nil => simp
  | cons m ms =>
    simp only [List.isEmpty_cons, if_false, Bool.false_eq_true]
    cases hs : advanced_move_ordering ai b (m :: ms) with
    | nil =>
      exfalso
      have : m ∈ advanced_move_ordering ai b (m :: ms) :=
        (advanced_move_ordering_mem ai b (m :: ms) m).2 (List.mem_cons_self _ _)
      rw [hs] at this
      exact absurd this (List.not_mem_nil m)
    | cons m0 rest => simp

/-- A `Some` answer of `search_depth` is a legal move of the given side. -/
theorem search_depth_some_mem (o : Nat → Bool) (ai : ChessAI) (k : Nat) (b : Board)
    (d : Nat) (color : Color) (mv : Move)
    (h : (search_depth o ai k b d color).1 = some mv) :
    mv ∈ b.generate_moves color := by
  unfold search_depth at h
  cases hm : b.generate_moves color with
  | nil => rw [hm] at h; simp at h
  | cons m ms =>
    rw [hm] at h
    simp only [List.isEmpty_cons, if_false, Bool.false_eq_true] at h
    cases hs : advanced_move_ordering ai b (m :: ms) with
    | nil => rw [hs] at h; simp at h
    | cons m0 rest =>
      rw [hs] at h
      simp only [Option.some.injEq] at h
      have hmem : (root_loop o d b color (m0 :: rest)
          (if color = Color.White then int32_min else int32_max) m0
          ai k).1 ∈ m0 :: rest := by
        rcases root_loop_result_mem o d b color (m0 :: rest) _ m0 ai k with hh | hh
        · rw [hh]; exact List.mem_cons_self _ _
        · exact hh
      rw [h] at hmem
      exact (advanced_move_ordering_mem ai b (m :: ms) mv).1 (by rw [hs]; exact hmem)

/-- With no legal move, every iteration of the deepening loop keeps `none`. -/
theorem id_loop_none_of_no_moves (o : Nat → Bool) (b : Board) (color : Color)
    (hm : b.generate_moves color = []) :
    ∀ (depths : List Nat) (ai : ChessAI) (k : Nat),
      (id_loop o b color depths none ai k).1 = none := by
  intro depths
  induction depths with
  | nil => intro ai k; rfl
  | cons d rest ih =>
    intro ai k
    unfold id_loop
    split
    · rfl
    · dsimp only
      have hnone : (search_depth o { ai with nodes_searched := 0 } (k + 1) b d color).1 =
          none := (search_depth_none_iff _ _ _ _ _ _).2 hm
      rw [hnone]
      exact ih _ _

/-- Once the deepening loop holds a move, it never returns `none`. -/
theorem id_loop_keeps_some (o : Nat → Bool) (b : Board) (color : Color) :
    ∀ (depths : List Nat) (m0 : Move) (ai : ChessAI) (k : Nat),
      (id_loop o b color depths (some m0) ai k).1 ≠ none := by
  intro depths
  induction depths with
  | nil => intro m0 ai k; simp [id_loop]
  | cons d rest ih =>
    intro m0 ai k
    unfold id_loop
    split
    · simp
    · dsimp only
      cases hr : (search_depth o { ai with nodes_searched := 0 } (k + 1) b d color).1 with
      | none => exact ih _ _ _
      | some mv =>
        by_cases h2 : o ((search_depth o { ai with nodes_searched := 0 }
            (k + 1) b d color).2.2) = true
        · simp [h2]
        · simp only [h2, Bool.false_eq_true, if_false]
          exact ih _ _ _

/-- A `Some` answer of the deepening loop is the incoming best or a legal
move of the given side. -/
theorem id_loop_some_mem (o : Nat → Bool) (b : Board) (color : Color) :
    ∀ (depths : List Nat) (best : Option Move) (ai : ChessAI) (k : Nat) (mv : Move),
      (id_loop o b color depths best ai k).1 = some mv →
      best = some mv ∨ mv ∈ b.generate_moves color := by
  intro depths
  induction depths with
  | nil => intro best ai k mv h; left; exact h
  | cons d rest ih =>
    intro best ai k mv h
    unfold id_loop at h
    split at h
    · left; exact h
    · dsimp only at h
      cases hr : (search_depth o { ai with nodes_searched := 0 } (k + 1) b d color).1 with
      | none => simp only [hr] at h; exact ih _ _ _ _ h
      | some m =>
        simp only [hr] at h
        by_cases h2 : o ((search_depth o { ai with nodes_searched := 0 }
            (k + 1) b d color).2.2) = true
        · rw [if_pos h2] at h
          right
          have hme : m = mv := by simpa using h
          rw [← hme]; exact search_depth_some_mem _ _ _ _ _ _ _ hr
        · rw [if_neg h2] at h
          rcases ih _ _ _ _ h with h1 | h1
          · right
            have hme : m = mv := by simpa using h1
            rw [← hme]; exact search_depth_some_mem _ _ _ _ _ _ _ hr
          · right; exact h1

/-- Counterexample to C2 as stated: `ChessAI::new(0)` has a positive time
budget (the default 1000 ms) but `max_depth = 0`, so the deepening loop runs
no iteration at all: `get_best_move` answers `None` on a position with legal
moves even though the budget is never exceeded. -/
theorem get_best_move_depth_zero_counterexample :
    (get_best_move o_false ai_depth0 bC3 .White).1 = none ∧
    bC3.generate_moves .White ≠ [] := ⟨rfl, by decide⟩

/-- C2 amended: provided the configured maximum depth is at least 1 and the
time budget is not already exhausted at the very first check, `get_best_move`
answers `None` exactly when the side to move has no legal moves, and any
`Some` answer is a member of `generate_moves` for that side on that board. -/
theorem get_best_move_none_iff (o : Nat → Bool) (ai : ChessAI) (b : Board) (color : Color)
    (hd : 1 ≤ ai.max_depth) (h0 : o 0 = false) :
    ((get_best_move o ai b color).1 = none ↔ b.generate_moves color = []) ∧
    (∀ mv, (get_best_move o ai b color).1 = some mv → mv ∈ b.generate_moves color) := by
  obtain ⟨n, hn⟩ : ∃ n, ai.max_depth = n + 1 := ⟨ai.max_depth - 1, by omega⟩
  unfold get_best_move iterative_deepening
  dsimp only
  set ai1 := if ai.transposition_table.length > 100000
    then { ai with transposition_table := ([] : List (Nat × TranspositionEntry)) } else ai
    with hai1
  have hmd : ai1.max_depth = ai.max_depth := by rw [hai1]; split <;> rfl
  rw [hmd, hn, List.range'_succ]
  refine ⟨⟨?_, ?_⟩, ?_⟩
  · intro h
    by_contra hne
    rw [id_loop] at h
    rw [if_neg (by rw [h0]; exact Bool.false_ne_true)] at h
    dsimp only at h
    cases hr : (search_depth o { ai1 with nodes_searched := 0 } (0 + 1) b 1 color).1 with
    | none =>
      exact hne ((search_depth_none_iff _ _ _ _ _ _).1 hr)
    | some m =>
      simp only [hr] at h
      by_cases h2 : o ((search_depth o { ai1 with nodes_searched := 0 }
          (0 + 1) b 1 color).2.2) = true
      · rw [if_pos h2] at h
        simp at h
      · rw [if_neg h2] at h
        exact id_loop_keeps_some o b color _ m _ _ h
  · intro h
    exact id_loop_none_of_no_moves o b color h _ _ _
  · intro mv h
    rcases id_loop_some_mem o b color _ _ _ _ _ h with h1 | h1
    · cases h1
    · exact h1

/-- Witness for the amended C2 at a concrete input (depth-1 engine, `bC3`,
budget never exhausted). -/
theorem get_best_move_none_iff_witness :
    (((get_best_move o_false ai_d1 bC3 .White).1 = none ↔
      bC3.generate_moves .White = []) ∧
     (∀ mv, (get_best_move o_false ai_d1 bC3 .White).1 = some mv →
      mv ∈ bC3.generate_moves .White)) :=
  get_best_move_none_iff o_false ai_d1 bC3 .White (by decide) rfl

/-- Provenance of the deepening loop's answer: either the loop returns the
incoming best move unchanged, or its answer is literally the result of the
`search_depth` call it made at some started iteration `d`, from the very
engine state and clock the loop itself had reached after running the earlier
iterations `pre` (node counter reset and clock advanced past the guard check,
exactly as in the loop body). -/
theorem id_loop_provenance (o : Nat → Bool) (b : Board) (color : Color) :
    ∀ (depths : List Nat) (best : Option Move) (ai : ChessAI) (k : Nat),
      (id_loop o b color depths best ai k).1 = best ∨
      ∃ pre d post, depths = pre ++ d :: post ∧
        (id_loop o b color depths best ai k).1 =
          (search_depth o
            { (id_loop o b color pre best ai k).2.1 with nodes_searched := 0 }
            ((id_loop o b color pre best ai k).2.2 + 1) b d color).1 ∧
        (search_depth o
            { (id_loop o b color pre best ai k).2.1 with nodes_searched := 0 }
            ((id_loop o b color pre best ai k).2.2 + 1) b d color).1 ≠ none := by
  intro depths
  induction depths with
  | nil => intro best ai k; left; rfl
  | cons d rest ih =>
    intro best ai k
    by_cases hg : o k = true
    · left
      rw [id_loop, if_pos hg]
    · cases hr : (search_depth o { ai with nodes_searched := 0 } (k + 1) b d color).1 with
      | none =>
        have hstep : id_loop o b color (d :: rest) best ai k =
            id_loop o b color rest best
              (search_depth o { ai with nodes_searched := 0 } (k + 1) b d color).2.1
              (search_depth o { ai with nodes_searched := 0 } (k + 1) b d color).2.2 := by
          rw [id_loop, if_neg hg]
          dsimp only
          simp only [hr]
        rcases ih best
            (search_depth o { ai with nodes_searched := 0 } (k + 1) b d color).2.1
            (search_depth o { ai with nodes_searched := 0 } (k + 1) b d color).2.2 with
          hleft | ⟨pre', d', post', hsp, heq, hne⟩
        · left
          rw [hstep]
          exact hleft
        · right
          have hstep' : id_loop o b color (d :: pre') best ai k =
              id_loop o b color pre' best
                (search_depth o { ai with nodes_searched := 0 } (k + 1) b d color).2.1
                (search_depth o { ai with nodes_searched := 0 } (k + 1) b d color).2.2 := by
            rw [id_loop, if_neg hg]
            dsimp only
            simp only [hr]
          refine ⟨d :: pre', d', post', by rw [hsp]; rfl, ?_, ?_⟩
          · rw [hstep, hstep']
            exact heq
          · rw [hstep']
            exact hne
      | some m =>
        by_cases h2 : o ((search_depth o { ai with nodes_searched := 0 }
            (k + 1) b d color).2.2) = true
        · right
          have hstep : (id_loop o b color (d :: rest) best ai k).1 = some m := by
            rw [id_loop, if_neg hg]
            dsimp only
            simp only [hr]
            rw [if_pos h2]
          refine ⟨[], d, rest, rfl, ?_, ?_⟩
          · rw [hstep]
            exact hr.symm
          · intro hc
            exact Option.noConfusion (hr.symm.trans hc)
        · have hstep : id_loop o b color (d :: rest) best ai k =
              id_loop o b color rest (some m)
                (search_depth o { ai with nodes_searched := 0 } (k + 1) b d color).2.1
                ((search_depth o { ai with nodes_searched := 0 } (k + 1) b d color).2.2 + 1) := by
            rw [id_loop, if_neg hg]
            dsimp only
            simp only [hr]
            rw [if_neg h2]
          rcases ih (some m)
              (search_depth o { ai with nodes_searched := 0 } (k + 1) b d color).2.1
              ((search_depth o { ai with nodes_searched := 0 } (k + 1) b d color).2.2 + 1) with
            hleft | ⟨pre', d', post', hsp, heq, hne⟩
          · right
            refine ⟨[], d, rest, rfl, ?_, ?_⟩
            · rw [hstep, hleft]
              exact hr.symm
            · intro hc
              exact Option.noConfusion (hr.symm.trans hc)
          · right
            have hstep' : id_loop o b color (d :: pre') best ai k =
                id_loop o b color pre' (some m)
                  (search_depth o { ai with nodes_searched := 0 } (k + 1) b d color).2.1
                  ((search_depth o { ai with nodes_searched := 0 } (k + 1) b d color).2.2 + 1) := by
              rw [id_loop, if_neg hg]
              dsimp only
              simp only [hr]
              rw [if_neg h2]
            refine ⟨d :: pre', d', post', by rw [hsp]; rfl, ?_, ?_⟩
            · rw [hstep, hstep']
              exact heq
            · rw [hstep']
              exact hne

set_option maxHeartbeats 4000000 in
/-- Counterexample to C3 as stated: on `bC3` with a two-depth engine and a
clock that runs out right before the first root move of the depth-2
iteration, the deepest COMPLETED iteration (depth 1, shown in the second
conjunct as the very `search_depth` call the loop makes) picks the king
capture (4,4)-(4,5), yet `get_best_move` answers the quiet move (4,4)-(3,4):
the aborted depth-2 iteration returned its initial best -- the first move of
its ordering -- and overwrote the completed depth-1 answer. -/
theorem aborted_deeper_iteration_overrides :
    (get_best_move oC3 ai_d2 bC3 .White).1 = some ⟨(4, 4), (3, 4), none⟩ ∧
    (search_depth oC3 { ai_d2 with nodes_searched := 0 } 1 bC3 1 .White).1 =
      some ⟨(4, 4), (4, 5), none⟩ ∧
    ((⟨(4, 4), (3, 4), none⟩ : Move) ≠ ⟨(4, 4), (4, 5), none⟩) := by
  refine ⟨by decide, by decide, by decide⟩

/-- C3 amended: when at least one legal move exists, the maximum depth is at
least 1 and the budget is not exhausted at the first check, the move returned
by `get_best_move` is the (possibly partial) best move of one of the
`search_depth` iterations the loop actually STARTED: the depth list
`1..=max_depth` splits as `pre ++ d :: post`, and the answer is literally the
result of the `search_depth` call at depth `d` from the engine state and
clock that the deepening loop itself had reached after the iterations in
`pre` (node counter reset, clock advanced past the guard, as in the loop
body).  `search_depth` returns its best-so-far even when aborted mid-scan,
and the loop overwrites its previous answer with it, so a deeper aborted
iteration DOES override the completed shallower one. -/
theorem get_best_move_from_started_iteration (o : Nat → Bool) (ai : ChessAI) (b : Board)
    (color : Color) (hd : 1 ≤ ai.max_depth) (h0 : o 0 = false)
    (hm : b.generate_moves color ≠ []) :
    ∃ pre d post, List.range' 1 ai.max_depth = pre ++ d :: post ∧
      1 ≤ d ∧ d ≤ ai.max_depth ∧
      (get_best_move o ai b color).1 =
        (search_depth o
          { (id_loop o b color pre none (tt_clear ai) 0).2.1 with nodes_searched := 0 }
          ((id_loop o b color pre none (tt_clear ai) 0).2.2 + 1) b d color).1 ∧
      (search_depth o
          { (id_loop o b color pre none (tt_clear ai) 0).2.1 with nodes_searched := 0 }
          ((id_loop o b color pre none (tt_clear ai) 0).2.2 + 1) b d color).1 ≠ none := by
  obtain ⟨n, hn⟩ : ∃ n, ai.max_depth = n + 1 := ⟨ai.max_depth - 1, by omega⟩
  have hmdep : (tt_clear ai).max_depth = ai.max_depth := by
    unfold tt_clear; split <;> rfl
  have hgb : get_best_move o ai b color =
      id_loop o b color (List.range' 1 ai.max_depth) none (tt_clear ai) 0 := by
    unfold get_best_move iterative_deepening
    dsimp only
    rw [show List.range' 1 ai.max_depth = List.range' 1 (tt_clear ai).max_depth from by
      rw [hmdep]]
    rfl
  rcases id_loop_provenance o b color (List.range' 1 ai.max_depth) none (tt_clear ai) 0 with
    hleft | ⟨pre, d, post, hsp, heq, hne⟩
  · exfalso
    rw [hn, List.range'_succ] at hleft
    rw [id_loop] at hleft
    rw [if_neg (by rw [h0]; exact Bool.false_ne_true)] at hleft
    dsimp only at hleft
    cases hr : (search_depth o { tt_clear ai with nodes_searched := 0 } (0 + 1) b 1 color).1 with
    | none => exact hm ((search_depth_none_iff _ _ _ _ _ _).1 hr)
    | some m =>
      simp only [hr] at hleft
      by_cases h2 : o ((search_depth o { tt_clear ai with nodes_searched := 0 }
          (0 + 1) b 1 color).2.2) = true
      · rw [if_pos h2] at hleft
        simp at hleft
      · rw [if_neg h2] at hleft
        exact id_loop_keeps_some o b color _ m _ _ hleft
  · have hdmem : d ∈ List.range' 1 ai.max_depth := by
      rw [hsp]
      exact List.mem_append.2 (Or.inr (List.mem_cons_self _ _))
    rw [List.mem_range'_1] at hdmem
    refine ⟨pre, d, post, hsp, hdmem.1, by omega, ?_, hne⟩
    rw [hgb]
    exact heq

/-- Witness for the amended C3 at a concrete input (depth-1 engine, `bC3`,
budget never exhausted). -/
theorem get_best_move_from_started_iteration_witness :
    ∃ pre d post, List.range' 1 ai_d1.max_depth = pre ++ d :: post ∧
      1 ≤ d ∧ d ≤ ai_d1.max_depth ∧
      (get_best_move o_false ai_d1 bC3 .White).1 =
        (search_depth o_false
          { (id_loop o_false bC3 .White pre none (tt_clear ai_d1) 0).2.1 with
            nodes_searched := 0 }
          ((id_loop o_false bC3 .White pre none (tt_clear ai_d1) 0).2.2 + 1) bC3 d .White).1 ∧
      (search_depth o_false
          { (id_loop o_false bC3 .White pre none (tt_clear ai_d1) 0).2.1 with
            nodes_searched := 0 }
          ((id_loop o_false bC3 .White pre none (tt_clear ai_d1) 0).2.2 + 1) bC3 d .White).1 ≠
        none :=
  get_best_move_from_started_iteration o_false ai_d1 bC3 .White (by decide) rfl (by decide)

theorem off_some (p : Nat × Nat) (d : Int × Int) (q : Nat × Nat) (h : off p d = some q) :
    (q.1 : Int) = (p.1 : Int) + d.1 ∧ (q.2 : Int) = (p.2 : Int) + d.2 ∧ q.1 < 8 ∧ q.2 < 8 := by
  unfold off at h
  dsimp only at h
  split at h
  · rename_i hc
    injection h with h
    subst h
    refine ⟨Int.toNat_of_nonneg hc.1, Int.toNat_of_nonneg hc.2.2.1, ?_, ?_⟩ <;> omega
  · cases h

theorem add_pawn_move_shape (src dst : Nat × Nat) (c : Color) (mv : Move)
    (h : mv ∈ add_pawn_move src dst c) :
    mv.from' = src ∧ mv.to' = dst ∧
    (mv.promotion = none ∨
      (((c = .White ∧ dst.1 = 0) ∨ (c = .Black ∧ dst.1 = 7)) ∧
        mv.promotion ∈ [some PieceType.Queen, some .Rook, some .Bishop, some .Knight])) := by
  unfold add_pawn_move at h
  split at h
  · rename_i hcond
    simp only [List.mem_cons, List.mem_singleton, List.not_mem_nil, or_false] at h
    rcases h with rfl | rfl | rfl | rfl <;>
      exact ⟨rfl, rfl, Or.inr ⟨hcond, by simp⟩⟩
  · simp only [List.mem_singleton] at h
    subst h
    exact ⟨rfl, rfl, Or.inl rfl⟩

theorem add_pawn_move_shape' (src dst : Nat × Nat) (c : Color) (mv : Move)
    (h : mv ∈ add_pawn_move src dst c) :
    mv.from' = src ∧
    (mv.promotion = none ∨
      (((c = .White ∧ mv.to'.1 = 0) ∨ (c = .Black ∧ mv.to'.1 = 7)) ∧
        mv.promotion ∈ [some PieceType.Queen, some .Rook, some .Bishop, some .Knight])) := by
  obtain ⟨h1, h2, h3⟩ := add_pawn_move_shape src dst c mv h
  refine ⟨h1, ?_⟩
  rcases h3 with hp | hp
  · exact Or.inl hp
  · exact Or.inr ⟨by rw [h2]; exact hp.1, hp.2⟩

theorem pawn_forward_moves_shape (b : Board) (pos : Nat × Nat) (c : Color) (mv : Move)
    (h : mv ∈ pawn_forward_moves b pos c) :
    ∃ q, q.2 = pos.2 ∧ b.get_piece q = none ∧
      (off pos (pawn_dir c, 0) = some q ∨ off pos (2 * pawn_dir c, 0) = some q) ∧
      mv ∈ add_pawn_move pos q c := by
  unfold pawn_forward_moves at h
  cases hoff : off pos (pawn_dir c, 0) with
  | none => simp only [hoff] at h; cases h
  | some fwd =>
    simp only [hoff] at h
    by_cases hempty : b.get_piece fwd = none
    · rw [if_pos hempty] at h
      rcases List.mem_append.1 h with h1 | h1
      · have hc := (off_some _ _ _ hoff).2.1
        exact ⟨fwd, by omega, hempty, Or.inl rfl, h1⟩
      · split at h1
        · cases hoff2 : off pos (2 * pawn_dir c, 0) with
          | none => simp only [hoff2] at h1; cases h1
          | some dbl =>
            simp only [hoff2] at h1
            by_cases hem2 : b.get_piece dbl = none
            · rw [if_pos hem2] at h1
              have hc := (off_some _ _ _ hoff2).2.1
              exact ⟨dbl, by omega, hem2, Or.inr rfl, h1⟩
            · rw [if_neg hem2] at h1; cases h1
        · cases h1
    · rw [if_neg hempty] at h; cases h

theorem pawn_capture_moves_shape (b : Board) (pos : Nat × Nat) (c : Color) (o : Int)
    (mv : Move) (h : mv ∈ pawn_capture_moves b pos c o) :
    ∃ q, off pos (pawn_dir c, o) = some q ∧
      ((∃ t, b.get_piece q = some t ∧ t.color ≠ c ∧ mv ∈ add_pawn_move pos q c) ∨
       (b.get_piece q = none ∧ b.en_passant_target = some q ∧ mv = ⟨pos, q, none⟩)) := by
  unfold pawn_capture_moves at h
  cases hoff : off pos (pawn_dir c, o) with
  | none => simp only [hoff] at h; cases h
  | some dst =>
    simp only [hoff] at h
    cases hg : b.get_piece dst with
    | some t =>
      simp only [hg] at h
      by_cases hcl : t.color ≠ c
      · rw [if_pos hcl] at h
        exact ⟨dst, rfl, Or.inl ⟨t, hg, hcl, h⟩⟩
      · rw [if_neg hcl] at h; cases h
    | none =>
      simp only [hg] at h
      cases hep : b.en_passant_target with
      | none => simp only [hep] at h; cases h
      | some ep =>
        simp only [hep] at h
        by_cases heq : dst = ep
        · rw [if_pos heq] at h
          simp only [List.mem_singleton] at h
          exact ⟨dst, rfl, Or.inr ⟨hg, by rw [heq], h⟩⟩
        · rw [if_neg heq] at h; cases h

theorem generate_pawn_moves_shape (b : Board) (pos : Nat × Nat) (c : Color)
    (mv : Move) (h : mv ∈ generate_pawn_moves b pos c) :
    mv.from' = pos ∧
    (mv.promotion = none ∨
      (((c = .White ∧ mv.to'.1 = 0) ∨ (c = .Black ∧ mv.to'.1 = 7)) ∧
        mv.promotion ∈ [some PieceType.Queen, some .Rook, some .Bishop, some .Knight])) := by
  unfold generate_pawn_moves at h
  rcases List.mem_append.1 h with h1 | h1
  · rcases List.mem_append.1 h1 with h2 | h2
    · obtain ⟨q, _, _, _, hmem⟩ := pawn_forward_moves_shape b pos c mv h2
      exact add_pawn_move_shape' _ _ _ _ hmem
    · obtain ⟨q, _, hcase⟩ := pawn_capture_moves_shape b pos c (-1) mv h2
      rcases hcase with ⟨t, _, _, hmem⟩ | ⟨_, _, rfl⟩
      · exact add_pawn_move_shape' _ _ _ _ hmem
      · exact ⟨rfl, Or.inl rfl⟩
  · obtain ⟨q, _, hcase⟩ := pawn_capture_moves_shape b pos c 1 mv h1
    rcases hcase with ⟨t, _, _, hmem⟩ | ⟨_, _, rfl⟩
    · exact add_pawn_move_shape' _ _ _ _ hmem
    · exact ⟨rfl, Or.inl rfl⟩

theorem slide_shape (b : Board) (pos : Nat × Nat) (pc : Color) (d : Int × Int) :
    ∀ (r c : Int) (fuel : Nat) (mv : Move), mv ∈ slide b pos pc d r c fuel →
      mv.from' = pos ∧ mv.promotion = none := by
  intro r c fuel
  induction fuel generalizing r c with
  | zero => intro mv h; simp [slide] at h
  | succ n ih =>
    intro mv h
    unfold slide at h
    split at h
    · dsimp only at h
      split at h
      · split at h
        · simp only [List.mem_singleton] at h; subst h; exact ⟨rfl, rfl⟩
        · simp at h
      · rcases List.mem_cons.1 h with rfl | h2
        · exact ⟨rfl, rfl⟩
        · exact ih _ _ _ h2
    · simp at h

theorem generate_sliding_moves_shape (b : Board) (pos : Nat × Nat) (dirs : List (Int × Int))
    (mv : Move) (h : mv ∈ generate_sliding_moves b pos dirs) :
    mv.from' = pos ∧ mv.promotion = none := by
  unfold generate_sliding_moves at h
  split at h
  · simp at h
  · rcases List.mem_flatMap.1 h with ⟨d, _, hmem⟩
    exact slide_shape b pos _ d _ _ _ mv hmem

theorem generate_knight_moves_shape (b : Board) (pos : Nat × Nat)
    (mv : Move) (h : mv ∈ generate_knight_moves b pos) :
    mv.from' = pos ∧ mv.promotion = none := by
  unfold generate_knight_moves at h
  split at h
  · simp at h
  · rcases List.mem_flatMap.1 h with ⟨d, _, hmem⟩
    split at hmem
    · split at hmem
      · split at hmem
        · simp only [List.mem_singleton] at hmem; subst hmem; exact ⟨rfl, rfl⟩
        · simp at hmem
      · simp only [List.mem_singleton] at hmem; subst hmem; exact ⟨rfl, rfl⟩
    · simp at hmem

set_option linter.unreachableTactic false in
set_option linter.unusedTactic false in
theorem generate_king_moves_shape (b : Board) (pos : Nat × Nat) (c : Color)
    (mv : Move) (h : mv ∈ generate_king_moves b pos c) :
    mv.from' = pos ∧ mv.promotion = none := by
  unfold generate_king_moves at h
  rcases List.mem_append.1 h with h1 | h1
  · rcases List.mem_flatMap.1 h1 with ⟨d, _, hmem⟩
    split at hmem
    · split at hmem
      · split at hmem
        · simp only [List.mem_singleton] at hmem; subst hmem; exact ⟨rfl, rfl⟩
        · simp at hmem
      · simp only [List.mem_singleton] at hmem; subst hmem; exact ⟨rfl, rfl⟩
    · simp at hmem
  · split at h1
    · split at h1
      · split at h1
        · rcases List.mem_append.1 h1 with h2 | h2 <;> split at h2 <;>
            simp only [List.mem_singleton, List.not_mem_nil] at h2 <;>
              first
              | (subst h2; exact ⟨rfl, rfl⟩)
              | cases h2
        · simp at h1
      · split at h1
        · rcases List.mem_append.1 h1 with h2 | h2 <;> split at h2 <;>
            simp only [List.mem_singleton, List.not_mem_nil] at h2 <;>
              first
              | (subst h2; exact ⟨rfl, rfl⟩)
              | cases h2
        · simp at h1
    · simp at h1

theorem generate_piece_moves_shape (b : Board) (pos : Nat × Nat) (p : Piece)
    (mv : Move) (h : mv ∈ generate_piece_moves b pos p) :
    mv.from' = pos ∧
    (mv.promotion = none ∨
      (p.piece_type = .Pawn ∧
        ((p.color = .White ∧ mv.to'.1 = 0) ∨ (p.color = .Black ∧ mv.to'.1 = 7)) ∧
        mv.promotion ∈ [some PieceType.Queen, some .Rook, some .Bishop, some .Knight])) := by
  unfold generate_piece_moves at h
  cases hp : p.piece_type <;> simp only [hp] at h
  · obtain ⟨ha, hb⟩ := generate_pawn_moves_shape b pos p.color mv h
    refine ⟨ha, ?_⟩
    rcases hb with hb | hb
    · exact Or.inl hb
    · exact Or.inr ⟨rfl, hb.1, hb.2⟩
  · exact (generate_sliding_moves_shape b pos _ mv h).imp id Or.inl
  · exact (generate_knight_moves_shape b pos mv h).imp id Or.inl
  · exact (generate_sliding_moves_shape b pos _ mv h).imp id Or.inl
  · exact (generate_sliding_moves_shape b pos _ mv h).imp id Or.inl
  · exact (generate_king_moves_shape b pos p.color mv h).imp id Or.inl

theorem generate_raw_moves_mem (b : Board) (c : Color) (mv : Move) :
    mv ∈ b.generate_raw_moves c ↔
      mv.from'.1 < 8 ∧ mv.from'.2 < 8 ∧
      ∃ piece, b.get_piece (mv.from'.1, mv.from'.2) = some piece ∧ piece.color = c ∧
        mv ∈ generate_piece_moves b (mv.from'.1, mv.from'.2) piece := by
  unfold Board.generate_raw_moves
  constructor
  · intro h
    rcases List.mem_flatMap.1 h with ⟨row, hrow, h1⟩
    rcases List.mem_flatMap.1 h1 with ⟨col, hcol, h2⟩
    rw [List.mem_range] at hrow hcol
    unfold square_moves at h2
    cases hg : b.get_piece (row, col) with
    | none => simp only [hg] at h2; cases h2
    | some piece =>
      simp only [hg] at h2
      by_cases hc : piece.color = c
      · rw [if_pos hc] at h2
        have hfrom : mv.from' = (row, col) := (generate_piece_moves_shape _ _ _ _ h2).1
        rw [hfrom]
        exact ⟨hrow, hcol, piece, hg, hc, h2⟩
      · rw [if_neg hc] at h2; cases h2
  · rintro ⟨h1, h2, piece, hg, hc, hmem⟩
    refine List.mem_flatMap.2 ⟨mv.from'.1, List.mem_range.2 h1, ?_⟩
    refine List.mem_flatMap.2 ⟨mv.from'.2, List.mem_range.2 h2, ?_⟩
    unfold square_moves
    simp only [hg]
    rw [if_pos hc]
    exact hmem

theorem flatMap_eq_nil_of_forall {α β : Type} (l : List α) (f : α → List β)
    (h : ∀ x ∈ l, f x = []) : l.flatMap f = [] := by
  induction l with
  | nil => rfl
  | cons x xs ih =>
    rw [List.flatMap_cons, h x (List.mem_cons_self _ _), List.nil_append]
    exact ih (fun y hy => h y (List.mem_cons_of_mem _ hy))

theorem flatMap_eq_single {α β : Type} (l : List α) (f : α → List β) (a : α)
    (ha : a ∈ l) (hnd : l.Nodup) (hothers : ∀ x ∈ l, x ≠ a → f x = []) :
    l.flatMap f = f a := by
  induction l with
  | nil => cases ha
  | cons x xs ih =>
    rw [List.flatMap_cons]
    rcases List.mem_cons.1 ha with rfl | hmem
    · have hrest : xs.flatMap f = [] := flatMap_eq_nil_of_forall xs f
        (fun y hy => hothers y (List.mem_cons_of_mem _ hy)
          (fun hya => (List.nodup_cons.1 hnd).1 (hya ▸ hy)))
      rw [hrest, List.append_nil]
    · have hx : f x = [] := hothers x (List.mem_cons_self _ _)
        (fun hxa => (List.nodup_cons.1 hnd).1 (hxa ▸ hmem))
      rw [hx, List.nil_append]
      exact ih hmem (List.nodup_cons.1 hnd).2
        (fun y hy hne => hothers y (List.mem_cons_of_mem _ hy) hne)

theorem moves_to_append (l1 l2 : List Move) (src dst : Nat × Nat) :
    moves_to (l1 ++ l2) src dst = moves_to l1 src dst ++ moves_to l2 src dst :=
  List.filter_append l1 l2

theorem moves_to_eq_nil (l : List Move) (src dst : Nat × Nat)
    (h : ∀ mv ∈ l, ¬(mv.from' = src ∧ mv.to' = dst)) : moves_to l src dst = [] := by
  unfold moves_to
  rw [List.filter_eq_nil_iff]
  intro a ha
  simpa using h a ha

theorem moves_to_add_pawn_move_self (src dst : Nat × Nat) (c : Color)
    (hfin : (c = .White ∧ dst.1 = 0) ∨ (c = .Black ∧ dst.1 = 7)) :
    moves_to (add_pawn_move src dst c) src dst =
      [⟨src, dst, some .Queen⟩, ⟨src, dst, some .Rook⟩,
       ⟨src, dst, some .Bishop⟩, ⟨src, dst, some .Knight⟩] := by
  unfold add_pawn_move moves_to
  rw [if_pos hfin]
  simp [List.filter]

theorem moves_to_add_pawn_move_ne (src dst q : Nat × Nat) (c : Color) (hne : q ≠ dst) :
    moves_to (add_pawn_move src q c) src dst = [] := by
  apply moves_to_eq_nil
  intro mv hmv
  have := (add_pawn_move_shape _ _ _ _ hmv).2.1
  rintro ⟨-, h2⟩
  exact hne (by rw [← this, h2])

theorem square_moves_to_eq_nil (b : Board) (c : Color) (row col : Nat)
    (src dst : Nat × Nat) (hne : (row, col) ≠ src) :
    moves_to (square_moves b c row col) src dst = [] := by
  apply moves_to_eq_nil
  intro mv hmv
  rintro ⟨h1, -⟩
  unfold square_moves at hmv
  rcases hg : b.get_piece (row, col) with _ | piece
  · simp only [hg] at hmv; cases hmv
  · simp only [hg] at hmv
    by_cases hc : piece.color = c
    · rw [if_pos hc] at hmv
      exact hne (by rw [← (generate_piece_moves_shape _ _ _ _ hmv).1, h1])
    · rw [if_neg hc] at hmv; cases hmv

theorem moves_to_raw (b : Board) (c : Color) (src dst : Nat × Nat)
    (h1 : src.1 < 8) (h2 : src.2 < 8) :
    moves_to (b.generate_raw_moves c) src dst =
      moves_to (square_moves b c src.1 src.2) src dst := by
  unfold Board.generate_raw_moves moves_to
  rw [List.filter_flatMap]
  rw [flatMap_eq_single (List.range 8) _ src.1 (List.mem_range.2 h1) (List.nodup_range 8)]
  · rw [List.filter_flatMap]
    rw [flatMap_eq_single (List.range 8) _ src.2 (List.mem_range.2 h2) (List.nodup_range 8)]
    intro col hcol hne
    exact square_moves_to_eq_nil b c src.1 col src dst
      (fun hq => hne (by rw [← hq]))
  · intro row hrow hne
    rw [List.filter_flatMap]
    apply flatMap_eq_nil_of_forall
    intro col hcol
    exact square_moves_to_eq_nil b c row col src dst
      (fun hq => hne (by rw [← hq]))

theorem square_moves_at_pawn (b : Board) (c : Color) (src : Nat × Nat)
    (hsrc : b.get_piece (src.1, src.2) = some ⟨.Pawn, c⟩) :
    square_moves b c src.1 src.2 = generate_pawn_moves b (src.1, src.2) c := by
  unfold square_moves
  simp only [hsrc]
  rw [if_pos trivial]
  rfl

theorem moves_to_pawn_case_forward (b : Board) (src dst : Nat × Nat) (c : Color)
    (hoff : off src (pawn_dir c, 0) = some dst)
    (hempty : b.get_piece dst = none)
    (hfin : (c = .White ∧ dst.1 = 0) ∨ (c = .Black ∧ dst.1 = 7)) :
    moves_to (generate_pawn_moves b src c) src dst =
      [⟨src, dst, some .Queen⟩, ⟨src, dst, some .Rook⟩,
       ⟨src, dst, some .Bishop⟩, ⟨src, dst, some .Knight⟩] := by
  have hcol : dst.2 = src.2 := by
    have := (off_some _ _ _ hoff).2.1; omega
  have hrow : (dst.1 : Int) = src.1 + pawn_dir c := (off_some _ _ _ hoff).1
  unfold generate_pawn_moves
  rw [moves_to_append, moves_to_append]
  have hfwd : moves_to (pawn_forward_moves b src c) src dst =
      [⟨src, dst, some .Queen⟩, ⟨src, dst, some .Rook⟩,
       ⟨src, dst, some .Bishop⟩, ⟨src, dst, some .Knight⟩] := by
    unfold pawn_forward_moves
    simp only [hoff]
    rw [if_pos hempty, moves_to_append, moves_to_add_pawn_move_self src dst c hfin]
    have hstart : src.1 ≠ pawn_start_row c := by
      rcases hfin with ⟨hc, h0⟩ | ⟨hc, h7⟩ <;> subst hc <;>
        simp only [pawn_start_row, pawn_dir, if_pos rfl] at hrow ⊢ <;>
          simp only [reduceCtorEq, if_false, if_true] at hrow ⊢ <;> omega
    rw [if_neg hstart]
    simp [moves_to]
  have hcap : ∀ o : Int, o = -1 ∨ o = 1 →
      moves_to (pawn_capture_moves b src c o) src dst = [] := by
    intro o ho
    apply moves_to_eq_nil
    intro mv hmv
    rintro ⟨-, hto⟩
    obtain ⟨q, hoffq, hcase⟩ := pawn_capture_moves_shape b src c o mv hmv
    have hq2 : (q.2 : Int) = src.2 + o := (off_some _ _ _ hoffq).2.1
    have hq : mv.to' = q := by
      rcases hcase with ⟨t, _, _, hm⟩ | ⟨_, _, rfl⟩
      · exact (add_pawn_move_shape _ _ _ _ hm).2.1
      · rfl
    rw [hq] at hto
    rw [hto] at hq2
    rcases ho with rfl | rfl <;> omega
  rw [hfwd, hcap (-1) (Or.inl rfl), hcap 1 (Or.inr rfl)]
  simp

theorem moves_to_pawn_case_capture (b : Board) (src dst : Nat × Nat) (c : Color) (o : Int)
    (ho : o = -1 ∨ o = 1)
    (hoff : off src (pawn_dir c, o) = some dst)
    (ht : ∃ t, b.get_piece dst = some t ∧ t.color ≠ c)
    (hfin : (c = .White ∧ dst.1 = 0) ∨ (c = .Black ∧ dst.1 = 7)) :
    moves_to (generate_pawn_moves b src c) src dst =
      [⟨src, dst, some .Queen⟩, ⟨src, dst, some .Rook⟩,
       ⟨src, dst, some .Bishop⟩, ⟨src, dst, some .Knight⟩] := by
  have hcol : (dst.2 : Int) = src.2 + o := (off_some _ _ _ hoff).2.1
  unfold generate_pawn_moves
  rw [moves_to_append, moves_to_append]
  have hfwd : moves_to (pawn_forward_moves b src c) src dst = [] := by
    apply moves_to_eq_nil
    intro mv hmv
    rintro ⟨-, hto⟩
    obtain ⟨q, hq2, _, _, hm⟩ := pawn_forward_moves_shape b src c mv hmv
    have hq : mv.to' = q := (add_pawn_move_shape _ _ _ _ hm).2.1
    have hqd : q = dst := by rw [← hq, hto]
    rw [hqd] at hq2
    rcases ho with rfl | rfl <;> omega
  have hcapo : moves_to (pawn_capture_moves b src c o) src dst =
      [⟨src, dst, some .Queen⟩, ⟨src, dst, some .Rook⟩,
       ⟨src, dst, some .Bishop⟩, ⟨src, dst, some .Knight⟩] := by
    unfold pawn_capture_moves
    simp only [hoff]
    obtain ⟨t, hg, hc⟩ := ht
    simp only [hg]
    rw [if_pos hc]
    exact moves_to_add_pawn_move_self src dst c hfin
  have hcapo' : ∀ o' : Int, (o' = -1 ∨ o' = 1) → o' ≠ o →
      moves_to (pawn_capture_moves b src c o') src dst = [] := by
    intro o' ho' hneo
    apply moves_to_eq_nil
    intro mv hmv
    rintro ⟨-, hto⟩
    obtain ⟨q, hoffq, hcase⟩ := pawn_capture_moves_shape b src c o' mv hmv
    have hq2 : (q.2 : Int) = src.2 + o' := (off_some _ _ _ hoffq).2.1
    have hq : mv.to' = q := by
      rcases hcase with ⟨t, _, _, hm⟩ | ⟨_, _, rfl⟩
      · exact (add_pawn_move_shape _ _ _ _ hm).2.1
      · rfl
    have hqd : q = dst := by rw [← hq, hto]
    rw [hqd] at hq2
    rcases ho with rfl | rfl <;> rcases ho' with rfl | rfl <;> omega
  rcases ho with rfl | rfl
  · rw [hfwd, hcapo, hcapo' 1 (Or.inr rfl) (by norm_num)]
    simp
  · rw [hfwd, hcapo' (-1) (Or.inl rfl) (by norm_num), hcapo]
    simp

theorem opposite_ne (c : Color) : (c = c.opposite) = False := by
  cases c <;> simp [Color.opposite]

theorem hit_enemy_congr (b1 b2 : Board) (c : Color) (s : Nat × Nat)
    (hsq : ∀ q, q ≠ s → b1.squares q = b2.squares q)
    (h1 : ∃ p, b1.squares s = some p ∧ p.color = c)
    (h2 : ∃ p, b2.squares s = some p ∧ p.color = c) :
    ∀ (qo : Option (Nat × Nat)) (pt : PieceType),
      hit_enemy b1 c.opposite qo pt = hit_enemy b2 c.opposite qo pt := by
  intro qo pt
  cases qo with
  | none => rfl
  | some q =>
    unfold hit_enemy
    by_cases hq : q = s
    · subst hq
      obtain ⟨p1, hp1, hc1⟩ := h1
      obtain ⟨p2, hp2, hc2⟩ := h2
      simp only [Board.get_piece, hp1, hp2, hc1, hc2, opposite_ne]
      simp
    · simp only [Board.get_piece, hsq q hq]

theorem ray_attacked_congr (b1 b2 : Board) (c : Color) (s : Nat × Nat)
    (hsq : ∀ q, q ≠ s → b1.squares q = b2.squares q)
    (h1 : ∃ p, b1.squares s = some p ∧ p.color = c)
    (h2 : ∃ p, b2.squares s = some p ∧ p.color = c) :
    ∀ (d : Int × Int) (r cc : Int) (fuel : Nat),
      ray_attacked b1 c.opposite d r cc fuel = ray_attacked b2 c.opposite d r cc fuel := by
  intro d r cc fuel
  induction fuel generalizing r cc with
  | zero => rfl
  | succ n ih =>
    unfold ray_attacked
    split
    · by_cases hq : ((r.toNat, cc.toNat) : Nat × Nat) = s
      · rw [hq]
        obtain ⟨p1, hp1, hc1⟩ := h1
        obtain ⟨p2, hp2, hc2⟩ := h2
        simp only [Board.get_piece, hp1, hp2, hc1, hc2, opposite_ne]
        simp
      · simp only [Board.get_piece, hsq _ hq]
        cases hx : b2.squares (r.toNat, cc.toNat) with
        | some p => rfl
        | none => exact ih _ _
    · rfl

theorem is_in_check_congr (b1 b2 : Board) (c : Color) (s : Nat × Nat)
    (hw : b1.white_king_pos = b2.white_king_pos)
    (hb : b1.black_king_pos = b2.black_king_pos)
    (hsq : ∀ q, q ≠ s → b1.squares q = b2.squares q)
    (h1 : ∃ p, b1.squares s = some p ∧ p.color = c)
    (h2 : ∃ p, b2.squares s = some p ∧ p.color = c) :
    b1.is_in_check c = b2.is_in_check c := by
  have hhit := hit_enemy_congr b1 b2 c s hsq h1 h2
  have hray := ray_attacked_congr b1 b2 c s hsq h1 h2
  unfold Board.is_in_check
  cases c <;> dsimp only <;> simp only [hw, hb, hhit, hray]

theorem make_move_pawn_promotion (b : Board) (ps q : Nat × Nat) (c : Color) (pk : PieceType)
    (hsrc : b.get_piece ps = some ⟨.Pawn, c⟩)
    (hfin : (c = .White ∧ q.1 = 0) ∨ (c = .Black ∧ q.1 = 7)) :
    (b.make_move ⟨ps, q, some pk⟩).2 =
      ((pawn_move_interim b ps q c).set_piece ps none).set_piece q (some ⟨pk, c⟩) := by
  unfold Board.make_move pawn_move_interim
  simp only [hsrc]
  simp only [reduceCtorEq, if_false, if_true, Option.getD_some]
  rw [if_pos hfin]

theorem pawn_move_interim_fields (b : Board) (ps q : Nat × Nat) (c : Color) :
    (pawn_move_interim b ps q c).white_king_pos = b.white_king_pos ∧
    (pawn_move_interim b ps q c).black_king_pos = b.black_king_pos := by
  unfold pawn_move_interim Board.set_piece
  dsimp only
  repeat' split
  all_goals exact ⟨rfl, rfl⟩

theorem promotion_check_eq (b : Board) (ps q : Nat × Nat) (c : Color) (pk1 pk2 : PieceType)
    (hsrc : b.get_piece ps = some ⟨.Pawn, c⟩)
    (hfin : (c = .White ∧ q.1 = 0) ∨ (c = .Black ∧ q.1 = 7)) :
    (b.make_move ⟨ps, q, some pk1⟩).2.is_in_check c =
      (b.make_move ⟨ps, q, some pk2⟩).2.is_in_check c := by
  rw [make_move_pawn_promotion b ps q c pk1 hsrc hfin,
    make_move_pawn_promotion b ps q c pk2 hsrc hfin]
  apply is_in_check_congr _ _ c q
  · exact (pawn_move_interim_fields b ps q c).1.trans
      (pawn_move_interim_fields b ps q c).1.symm
  · exact (pawn_move_interim_fields b ps q c).2.trans
      (pawn_move_interim_fields b ps q c).2.symm
  · intro r hr
    unfold Board.set_piece
    dsimp only
    rw [if_neg hr, if_neg hr]
  · refine ⟨⟨pk1, c⟩, ?_, rfl⟩
    unfold Board.set_piece
    dsimp only
    rw [if_pos rfl]
  · refine ⟨⟨pk2, c⟩, ?_, rfl⟩
    unfold Board.set_piece
    dsimp only
    rw [if_pos rfl]

theorem moves_to_filter (l : List Move) (P : Move → Bool) (src dst : Nat × Nat) :
    moves_to (l.filter P) src dst = (moves_to l src dst).filter P := by
  unfold moves_to
  rw [List.filter_filter, List.filter_filter]
  apply List.filter_congr
  intro x _
  rw [Bool.and_comm]

/-- C10 amended: for a pawn forward move onto an empty final-rank square, or
an ordinary diagonal capture onto an enemy piece on the final rank,
`generate_raw_moves` emits EXACTLY the four promotion moves Queen, Rook,
Bishop, Knight for that from/to pair (in that order, none with
`promotion = none`); `generate_moves` emits either those same four or none
at all (the legality filter treats the four promotions alike, since the
resulting boards differ only in the type of the promoted piece of the moving
side); and every pseudo-legal move carrying a promotion comes from a pawn of
the moving side reaching the final rank, with one of those four kinds — so
every non-promoting pawn move is emitted with `promotion = none`.  (The
claim asserted `generate_moves` also always emits exactly four; the
counterexample shows a pinned pawn whose four promotions are all filtered
out.) -/
theorem pawn_promotion_move_generation (b : Board) (src dst : Nat × Nat) (c : Color)
    (hsrc : b.get_piece src = some ⟨.Pawn, c⟩)
    (h1 : src.1 < 8) (h2 : src.2 < 8)
    (hfin : (c = .White ∧ dst.1 = 0) ∨ (c = .Black ∧ dst.1 = 7))
    (hcase : (off src (pawn_dir c, 0) = some dst ∧ b.get_piece dst = none) ∨
      (∃ o : Int, (o = -1 ∨ o = 1) ∧ off src (pawn_dir c, o) = some dst ∧
        ∃ t, b.get_piece dst = some t ∧ t.color ≠ c)) :
    moves_to (b.generate_raw_moves c) src dst =
      [⟨src, dst, some .Queen⟩, ⟨src, dst, some .Rook⟩,
       ⟨src, dst, some .Bishop⟩, ⟨src, dst, some .Knight⟩] ∧
    (moves_to (b.generate_moves c) src dst =
      [⟨src, dst, some .Queen⟩, ⟨src, dst, some .Rook⟩,
       ⟨src, dst, some .Bishop⟩, ⟨src, dst, some .Knight⟩] ∨
     moves_to (b.generate_moves c) src dst = []) ∧
    (∀ mv ∈ b.generate_raw_moves c, mv.promotion ≠ none →
      b.get_piece mv.from' = some ⟨.Pawn, c⟩ ∧
      ((c = .White ∧ mv.to'.1 = 0) ∨ (c = .Black ∧ mv.to'.1 = 7)) ∧
      mv.promotion ∈ [some PieceType.Queen, some .Rook, some .Bishop, some .Knight]) := by
  have hsrc' : b.get_piece (src.1, src.2) = some ⟨.Pawn, c⟩ := by
    rw [Prod.mk.eta]; exact hsrc
  have hraw : moves_to (b.generate_raw_moves c) src dst =
      [⟨src, dst, some .Queen⟩, ⟨src, dst, some .Rook⟩,
       ⟨src, dst, some .Bishop⟩, ⟨src, dst, some .Knight⟩] := by
    rw [moves_to_raw b c src dst h1 h2, square_moves_at_pawn b c src hsrc', Prod.mk.eta]
    rcases hcase with ⟨hoff, hempty⟩ | ⟨o, ho, hoff, ht⟩
    · exact moves_to_pawn_case_forward b src dst c hoff hempty hfin
    · exact moves_to_pawn_case_capture b src dst c o ho hoff ht hfin
  refine ⟨hraw, ?_, ?_⟩
  · unfold Board.generate_moves
    rw [moves_to_filter, hraw]
    have e2 := promotion_check_eq b src dst c PieceType.Rook PieceType.Queen hsrc hfin
    have e3 := promotion_check_eq b src dst c PieceType.Bishop PieceType.Queen hsrc hfin
    have e4 := promotion_check_eq b src dst c PieceType.Knight PieceType.Queen hsrc hfin
    cases hchk : (b.make_move ⟨src, dst, some PieceType.Queen⟩).2.is_in_check c with
    | true =>
      right
      rw [hchk] at e2 e3 e4
      simp [List.filter_cons, List.filter_nil, hchk, e2, e3, e4]
    | false =>
      left
      rw [hchk] at e2 e3 e4
      simp [List.filter_cons, List.filter_nil, hchk, e2, e3, e4]
  · intro mv hmv hp
    obtain ⟨ha, hb', piece, hg, hcol, hmem⟩ := (generate_raw_moves_mem b c mv).1 hmv
    obtain ⟨-, hsh⟩ := generate_piece_moves_shape b _ piece mv hmem
    rcases hsh with hnone | ⟨hpt, hranks, hmemp⟩
    · exact absurd hnone hp
    · have hpiece : piece = ⟨.Pawn, c⟩ := by
        cases piece
        simp_all
      refine ⟨?_, ?_, hmemp⟩
      · rw [Prod.mk.eta] at hg
        rw [hg, hpiece]
      · rwa [hcol] at hranks

/-- Counterexample to C10 as stated: in `bPin` the a7 pawn's capture of the
knight b8 is a pawn move to the final rank, and `generate_raw_moves` emits
its four promotions, but every one of them exposes the white king to the
rook a8, so `generate_moves` emits NONE of them — not exactly four. -/
theorem pinned_promotions_all_filtered :
    moves_to (bPin.generate_raw_moves .White) (1, 0) (0, 1) =
      [⟨(1, 0), (0, 1), some .Queen⟩, ⟨(1, 0), (0, 1), some .Rook⟩,
       ⟨(1, 0), (0, 1), some .Bishop⟩, ⟨(1, 0), (0, 1), some .Knight⟩] ∧
    moves_to (bPin.generate_moves .White) (1, 0) (0, 1) = [] ∧
    bPin.get_piece (1, 0) = some ⟨.Pawn, .White⟩ ∧
    bPin.get_piece (0, 1) = some ⟨.Knight, .Black⟩ := by
  refine ⟨by decide, by decide, rfl, rfl⟩

/-- Witness for the amended C10 at a concrete input: the free promotion push
a7-a8 on `bProm`. -/
theorem pawn_promotion_move_generation_witness :
    moves_to (bProm.generate_raw_moves .White) (1, 0) (0, 0) =
      [⟨(1, 0), (0, 0), some .Queen⟩, ⟨(1, 0), (0, 0), some .Rook⟩,
       ⟨(1, 0), (0, 0), some .Bishop⟩, ⟨(1, 0), (0, 0), some .Knight⟩] ∧
    (moves_to (bProm.generate_moves .White) (1, 0) (0, 0) =
      [⟨(1, 0), (0, 0), some .Queen⟩, ⟨(1, 0), (0, 0), some .Rook⟩,
       ⟨(1, 0), (0, 0), some .Bishop⟩, ⟨(1, 0), (0, 0), some .Knight⟩] ∨
     moves_to (bProm.generate_moves .White) (1, 0) (0, 0) = []) :=
  ⟨(pawn_promotion_move_generation bProm (1, 0) (0, 0) .White (by decide) (by decide)
      (by decide) (Or.inl ⟨rfl, rfl⟩) (Or.inl ⟨by decide, by decide⟩)).1,
   (pawn_promotion_move_generation bProm (1, 0) (0, 0) .White (by decide) (by decide)
      (by decide) (Or.inl ⟨rfl, rfl⟩) (Or.inl ⟨by decide, by decide⟩)).2.1⟩

theorem king_invariant_of_updates (b b2 : Board)
    (hki : king_invariant b)
    (hw : b2.white_king_pos = b.white_king_pos)
    (hb : b2.black_king_pos = b.black_king_pos)
    (hsq : ∀ sq : Nat × Nat,
      b2.squares sq = b.squares sq ∨
      ((∀ pp, b2.squares sq = some pp → pp.piece_type ≠ .King) ∧
       (∀ pp, b.squares sq = some pp → pp.piece_type ≠ .King))) :
    king_invariant b2 := by
  obtain ⟨hw1, hw2, hb1, hb2, hwk, hbk, hpt⟩ := hki
  simp only [Board.get_piece] at hwk hbk hpt
  unfold king_invariant
  simp only [Board.get_piece]
  have hwk2 : b2.squares b.white_king_pos = some ⟨.King, .White⟩ := by
    rcases hsq b.white_king_pos with h | ⟨_, h2⟩
    · rw [h]; exact hwk
    · exact absurd rfl (h2 _ hwk)
  have hbk2 : b2.squares b.black_king_pos = some ⟨.King, .Black⟩ := by
    rcases hsq b.black_king_pos with h | ⟨_, h2⟩
    · rw [h]; exact hbk
    · exact absurd rfl (h2 _ hbk)
  refine ⟨hw ▸ hw1, hw ▸ hw2, hb ▸ hb1, hb ▸ hb2, ?_, ?_, ?_⟩
  · rw [hw]; exact hwk2
  · rw [hb]; exact hbk2
  · intro r hr cc hc
    constructor
    · intro hx
      rcases hsq (r, cc) with h | ⟨h1, _⟩
      · rw [h] at hx
        rw [hw]
        exact ((hpt r hr cc hc).1 hx)
      · exact absurd rfl (h1 _ hx)
    · intro hx
      rcases hsq (r, cc) with h | ⟨h1, _⟩
      · rw [h] at hx
        rw [hb]
        exact ((hpt r hr cc hc).2 hx)
      · exact absurd rfl (h1 _ hx)

theorem king_invariant_king_move_white (b b2 : Board) (q : Nat × Nat)
    (hki : king_invariant b)
    (hw2 : b2.white_king_pos = q)
    (hb2 : b2.black_king_pos = b.black_king_pos)
    (hq1 : q.1 < 8) (hq2 : q.2 < 8)
    (hnq : q ≠ b.white_king_pos)
    (hq : b2.squares q = some ⟨.King, .White⟩)
    (hqb : ∀ pp, b.squares q = some pp → pp.piece_type ≠ .King)
    (hps0 : b2.squares b.white_king_pos = none)
    (hsq : ∀ sq : Nat × Nat, sq ≠ q → sq ≠ b.white_king_pos →
      (b2.squares sq = b.squares sq ∨
        ((∀ pp, b2.squares sq = some pp → pp.piece_type ≠ .King) ∧
         (∀ pp, b.squares sq = some pp → pp.piece_type ≠ .King)))) :
    king_invariant b2 := by
  obtain ⟨hw1b, hw2b, hb1b, hb2b, hwk, hbk, hpt⟩ := hki
  simp only [Board.get_piece] at hwk hbk hpt
  unfold king_invariant
  simp only [Board.get_piece]
  have hbq : b.black_king_pos ≠ q := by
    intro h
    exact hqb _ (h ▸ hbk) rfl
  have hbps : b.black_king_pos ≠ b.white_king_pos := by
    intro h
    rw [h, hwk] at hbk
    cases hbk
  have hbk2 : b2.squares b.black_king_pos = some ⟨.King, .Black⟩ := by
    rcases hsq b.black_king_pos hbq hbps with h | ⟨_, h2⟩
    · rw [h]; exact hbk
    · exact absurd rfl (h2 _ hbk)
  refine ⟨hw2 ▸ hq1, hw2 ▸ hq2, hb2 ▸ hb1b, hb2 ▸ hb2b, ?_, ?_, ?_⟩
  · rw [hw2]; exact hq
  · rw [hb2]; exact hbk2
  · intro r hr cc hc
    constructor
    · intro hx
      rw [hw2]
      by_cases h1 : (r, cc) = q
      · exact h1
      · by_cases h2 : (r, cc) = b.white_king_pos
        · rw [h2, hps0] at hx; cases hx
        · rcases hsq (r, cc) h1 h2 with h | ⟨hh1, _⟩
          · rw [h] at hx
            exact absurd ((hpt r hr cc hc).1 hx) h2
          · exact absurd rfl (hh1 _ hx)
    · intro hx
      rw [hb2]
      by_cases h1 : (r, cc) = q
      · rw [h1, hq] at hx; cases hx
      · by_cases h2 : (r, cc) = b.white_king_pos
        · rw [h2, hps0] at hx; cases hx
        · rcases hsq (r, cc) h1 h2 with h | ⟨hh1, _⟩
          · rw [h] at hx
            exact (hpt r hr cc hc).2 hx
          · exact absurd rfl (hh1 _ hx)

theorem king_invariant_king_move_black (b b2 : Board) (q : Nat × Nat)
    (hki : king_invariant b)
    (hb2 : b2.black_king_pos = q)
    (hw2 : b2.white_king_pos = b.white_king_pos)
    (hq1 : q.1 < 8) (hq2 : q.2 < 8)
    (hnq : q ≠ b.black_king_pos)
    (hq : b2.squares q = some ⟨.King, .Black⟩)
    (hqb : ∀ pp, b.squares q = some pp → pp.piece_type ≠ .King)
    (hps0 : b2.squares b.black_king_pos = none)
    (hsq : ∀ sq : Nat × Nat, sq ≠ q → sq ≠ b.black_king_pos →
      (b2.squares sq = b.squares sq ∨
        ((∀ pp, b2.squares sq = some pp → pp.piece_type ≠ .King) ∧
         (∀ pp, b.squares sq = some pp → pp.piece_type ≠ .King)))) :
    king_invariant b2 := by
  obtain ⟨hw1b, hw2b, hb1b, hb2b, hwk, hbk, hpt⟩ := hki
  simp only [Board.get_piece] at hwk hbk hpt
  unfold king_invariant
  simp only [Board.get_piece]
  have hwq : b.white_king_pos ≠ q := by
    intro h
    exact hqb _ (h ▸ hwk) rfl
  have hwps : b.white_king_pos ≠ b.black_king_pos := by
    intro h
    rw [h, hbk] at hwk
    cases hwk
  have hwk2 : b2.squares b.white_king_pos = some ⟨.King, .White⟩ := by
    rcases hsq b.white_king_pos hwq hwps with h | ⟨_, h2⟩
    · rw [h]; exact hwk
    · exact absurd rfl (h2 _ hwk)
  refine ⟨hw2 ▸ hw1b, hw2 ▸ hw2b, hb2 ▸ hq1, hb2 ▸ hq2, ?_, ?_, ?_⟩
  · rw [hw2]; exact hwk2
  · rw [hb2]; exact hq
  · intro r hr cc hc
    constructor
    · intro hx
      rw [hw2]
      by_cases h1 : (r, cc) = q
      · rw [h1, hq] at hx; cases hx
      · by_cases h2 : (r, cc) = b.black_king_pos
        · rw [h2, hps0] at hx; cases hx
        · rcases hsq (r, cc) h1 h2 with h | ⟨hh1, _⟩
          · rw [h] at hx
            exact (hpt r hr cc hc).1 hx
          · exact absurd rfl (hh1 _ hx)
    · intro hx
      rw [hb2]
      by_cases h1 : (r, cc) = q
      · exact h1
      · by_cases h2 : (r, cc) = b.black_king_pos
        · rw [h2, hps0] at hx; cases hx
        · rcases hsq (r, cc) h1 h2 with h | ⟨hh1, _⟩
          · rw [h] at hx
            exact absurd ((hpt r hr cc hc).2 hx) h2
          · exact absurd rfl (hh1 _ hx)

theorem make_move_fields_plain (b : Board) (mv : Move) (piece : Piece)
    (hg : b.get_piece mv.from' = some piece)
    (hk : piece.piece_type ≠ .King) (hp : piece.piece_type ≠ .Pawn) :
    (b.make_move mv).2.white_king_pos = b.white_king_pos ∧
    (b.make_move mv).2.black_king_pos = b.black_king_pos ∧
    ∀ sq, (b.make_move mv).2.squares sq =
      if sq = mv.to' then some piece else if sq = mv.from' then none else b.squares sq := by
  unfold Board.make_move
  simp only [hg]
  rw [if_neg hk, if_neg hp, if_neg hp]
  split
  · split <;> exact ⟨rfl, rfl, fun sq => rfl⟩
  · exact ⟨rfl, rfl, fun sq => rfl⟩

theorem make_move_fields_pawn (b : Board) (mv : Move) (piece : Piece)
    (hg : b.get_piece mv.from' = some piece)
    (hpt : piece.piece_type = .Pawn) :
    (b.make_move mv).2.white_king_pos = b.white_king_pos ∧
    (b.make_move mv).2.black_king_pos = b.black_king_pos ∧
    ((((mv.from'.2 != mv.to'.2) && (b.get_piece mv.to').isNone) = false →
      ∀ sq, (b.make_move mv).2.squares sq =
        if sq = mv.to' then some (pawn_final_piece mv piece)
        else if sq = mv.from' then none else b.squares sq) ∧
     (((mv.from'.2 != mv.to'.2) && (b.get_piece mv.to').isNone) = true →
      ∀ sq, (b.make_move mv).2.squares sq =
        if sq = mv.to' then some (pawn_final_piece mv piece)
        else if sq = mv.from' then none
        else if sq = (mv.from'.1, mv.to'.2) then none
        else b.squares sq)) := by
  have hnk : piece.piece_type ≠ .King := by rw [hpt]; intro h; cases h
  have hnr : piece.piece_type ≠ .Rook := by rw [hpt]; intro h; cases h
  unfold Board.make_move
  simp only [hg]
  rw [if_neg hnk, if_pos hpt, if_neg hnr, if_pos hpt]
  unfold pawn_final_piece
  simp only [Board.get_piece, Board.set_piece, apply_ite Board.squares,
    apply_ite Board.white_king_pos, apply_ite Board.black_king_pos, ite_self,
    Bool.and_eq_true, decide_eq_true_eq]
  refine ⟨trivial, trivial, fun hf sq => ?_, fun ht sq => ?_⟩
  · have hne : ¬((mv.from'.2 != mv.to'.2) = true ∧ (b.squares mv.to').isNone = true) := by
      intro hand
      simp only [Board.get_piece] at hf
      simp [hand.1, hand.2] at hf
    rw [if_neg hne]
  · have hpos : (mv.from'.2 != mv.to'.2) = true ∧ (b.squares mv.to').isNone = true := by
      simp only [Board.get_piece, Bool.and_eq_true] at ht
      exact ht
    rw [if_pos hpos]

theorem make_move_fields_king_quiet (b : Board) (mv : Move) (piece : Piece)
    (hg : b.get_piece mv.from' = some piece)
    (hpt : piece.piece_type = .King)
    (hnc : ((mv.to'.2 : Int) - (mv.from'.2 : Int)).natAbs ≠ 2) :
    ((piece.color = .White →
        (b.make_move mv).2.white_king_pos = mv.to' ∧
        (b.make_move mv).2.black_king_pos = b.black_king_pos) ∧
     (piece.color = .Black →
        (b.make_move mv).2.black_king_pos = mv.to' ∧
        (b.make_move mv).2.white_king_pos = b.white_king_pos)) ∧
    ∀ sq, (b.make_move mv).2.squares sq =
      if sq = mv.to' then some piece else if sq = mv.from' then none else b.squares sq := by
  have hnp : piece.piece_type ≠ .Pawn := by rw [hpt]; intro h; cases h
  have hnr : piece.piece_type ≠ .Rook := by rw [hpt]; intro h; cases h
  unfold Board.make_move
  simp only [hg]
  rw [if_pos hpt, if_neg hnc, if_neg hnp, if_neg hnr, if_neg hnp]
  cases hcol : piece.color
  · refine ⟨⟨fun _ => ⟨?_, ?_⟩, fun h => Color.noConfusion h⟩, fun sq => ?_⟩ <;> rfl
  · refine ⟨⟨fun h => Color.noConfusion h, fun _ => ⟨?_, ?_⟩⟩, fun sq => ?_⟩ <;> rfl

theorem make_move_fields_king_castle (b : Board) (mv : Move) (piece : Piece)
    (hg : b.get_piece mv.from' = some piece)
    (hpt : piece.piece_type = .King)
    (hc2 : ((mv.to'.2 : Int) - (mv.from'.2 : Int)).natAbs = 2)
    (rc : Nat × Nat)
    (hrc : rc = if ((mv.to'.2 : Int) - (mv.from'.2 : Int)) > 0 then ((7, 5) : Nat × Nat)
           else (0, 3)) :
    ((piece.color = .White →
        (b.make_move mv).2.white_king_pos = mv.to' ∧
        (b.make_move mv).2.black_king_pos = b.black_king_pos) ∧
     (piece.color = .Black →
        (b.make_move mv).2.black_king_pos = mv.to' ∧
        (b.make_move mv).2.white_king_pos = b.white_king_pos)) ∧
    ∀ sq, (b.make_move mv).2.squares sq =
      if sq = mv.to' then some piece
      else if sq = mv.from' then none
      else if sq = (mv.from'.1, rc.2) then b.squares (mv.from'.1, rc.1)
      else if sq = (mv.from'.1, rc.1) then none
      else b.squares sq := by
  have hnp : piece.piece_type ≠ .Pawn := by rw [hpt]; intro h; cases h
  have hnr : piece.piece_type ≠ .Rook := by rw [hpt]; intro h; cases h
  subst hrc
  unfold Board.make_move
  simp only [hg]
  rw [if_pos hpt, if_pos hc2, if_neg hnp, if_neg hnr, if_neg hnp]
  by_cases hgt : ((mv.to'.2 : Int) - (mv.from'.2 : Int)) > 0
  · rw [if_pos hgt]
    cases hcol : piece.color
    · refine ⟨⟨fun _ => ⟨?_, ?_⟩, fun h => Color.noConfusion h⟩, fun sq => ?_⟩ <;> rfl
    · refine ⟨⟨fun h => Color.noConfusion h, fun _ => ⟨?_, ?_⟩⟩, fun sq => ?_⟩ <;> rfl
  · rw [if_neg hgt]
    cases hcol : piece.color
    · refine ⟨⟨fun _ => ⟨?_, ?_⟩, fun h => Color.noConfusion h⟩, fun sq => ?_⟩ <;> rfl
    · refine ⟨⟨fun h => Color.noConfusion h, fun _ => ⟨?_, ?_⟩⟩, fun sq => ?_⟩ <;> rfl

theorem king_offsets_adjacent (pos : Nat × Nat) (d : Int × Int) (hd : d ∈ king_offsets)
    (q : Nat × Nat) (h : off pos d = some q) :
    q.1 < 8 ∧ q.2 < 8 ∧ q ≠ pos ∧ ((q.2 : Int) - (pos.2 : Int)).natAbs ≠ 2 := by
  obtain ⟨h1, h2, h3, h4⟩ := off_some pos d q h
  fin_cases hd <;>
    exact ⟨h3, h4, fun he => by rw [he] at h1 h2; omega, by omega⟩

theorem generate_king_moves_cases (b : Board) (pos : Nat × Nat) (c : Color)
    (mv : Move) (h : mv ∈ generate_king_moves b pos c) :
    (∃ d ∈ king_offsets, off pos d = some mv.to') ∨
    (b.is_valid_castling ⟨pos, mv.to', none⟩ = true ∧ pos.2 = 4 ∧
      mv.to'.1 = pos.1 ∧ (mv.to'.2 = 6 ∨ mv.to'.2 = 2)) := by
  unfold generate_king_moves at h
  rcases List.mem_append.1 h with h1 | h1
  · rcases List.mem_flatMap.1 h1 with ⟨d, hd, hmem⟩
    left
    refine ⟨d, hd, ?_⟩
    cases hoff : off pos d with
    | none => simp only [hoff] at hmem; cases hmem
    | some tp =>
      simp only [hoff] at hmem
      cases hg : b.get_piece tp with
      | some target =>
        simp only [hg] at hmem
        split at hmem
        · simp only [List.mem_singleton] at hmem; subst hmem; rfl
        · cases hmem
      | none =>
        simp only [hg, List.mem_singleton] at hmem
        subst hmem; rfl
  · right
    split at h1
    · split at h1
      · split at h1
        · rename_i hcond
          rcases List.mem_append.1 h1 with h2 | h2
          · split at h2
            · rename_i hv
              simp only [List.mem_singleton] at h2
              subst h2
              exact ⟨hv.2, hcond.2.2, hcond.2.1.symm, Or.inl rfl⟩
            · cases h2
          · split at h2
            · rename_i hv
              simp only [List.mem_singleton] at h2
              subst h2
              exact ⟨hv.2, hcond.2.2, hcond.2.1.symm, Or.inr rfl⟩
            · cases h2
        · cases h1
      · split at h1
        · rename_i hcond
          rcases List.mem_append.1 h1 with h2 | h2
          · split at h2
            · rename_i hv
              simp only [List.mem_singleton] at h2
              subst h2
              exact ⟨hv.2, hcond.2.2, hcond.2.1.symm, Or.inl rfl⟩
            · cases h2
          · split at h2
            · rename_i hv
              simp only [List.mem_singleton] at h2
              subst h2
              exact ⟨hv.2, hcond.2.2, hcond.2.1.symm, Or.inr rfl⟩
            · cases h2
        · cases h1
    · cases h1

theorem is_valid_castling_kingside (b : Board) (r : Nat)
    (hv : b.is_valid_castling ⟨(r, 4), (r, 6), none⟩ = true) :
    (∃ rook, b.get_piece (r, 7) = some rook ∧ rook.piece_type = .Rook) ∧
    b.get_piece (r, 5) = none := by
  unfold Board.is_valid_castling at hv
  simp at hv
  cases hk : b.get_piece (r, 4) with
  | none => simp only [hk] at hv; cases hv
  | some king =>
    simp only [hk] at hv
    cases hr : b.get_piece (r, 7) with
    | none => simp [hr] at hv
    | some rook =>
      simp only [hr, Bool.and_eq_true, decide_eq_true_eq] at hv
      obtain ⟨-, -, -, ⟨h4, -⟩, h5, -⟩ := hv
      exact ⟨⟨rook, rfl, h4⟩, h5⟩

theorem is_valid_castling_queenside (b : Board) (r : Nat)
    (hv : b.is_valid_castling ⟨(r, 4), (r, 2), none⟩ = true) :
    (∃ rook, b.get_piece (r, 0) = some rook ∧ rook.piece_type = .Rook) ∧
    b.get_piece (r, 3) = none := by
  unfold Board.is_valid_castling at hv
  simp at hv
  cases hk : b.get_piece (r, 4) with
  | none => simp only [hk] at hv; cases hv
  | some king =>
    simp only [hk] at hv
    cases hr : b.get_piece (r, 0) with
    | none => simp [hr] at hv
    | some rook =>
      simp only [hr, Bool.and_eq_true, decide_eq_true_eq] at hv
      obtain ⟨-, -, -, ⟨h4, -⟩, h5, -⟩ := hv
      exact ⟨⟨rook, rfl, h4⟩, h5⟩

theorem generate_pawn_moves_cases (b : Board) (pos : Nat × Nat) (c : Color)
    (mv : Move) (h : mv ∈ generate_pawn_moves b pos c) :
    (mv.to'.2 = pos.2 ∧ b.get_piece mv.to' = none) ∨
    (∃ t, b.get_piece mv.to' = some t) ∨
    (b.get_piece mv.to' = none ∧ b.en_passant_target = some mv.to' ∧
      mv.to'.2 ≠ pos.2 ∧ ((mv.to'.1 : Int) = (pos.1 : Int) + pawn_dir c)) := by
  unfold generate_pawn_moves at h
  rcases List.mem_append.1 h with h1 | h1
  · rcases List.mem_append.1 h1 with h2 | h2
    · obtain ⟨q, hq2, hempty, _, hmem⟩ := pawn_forward_moves_shape b pos c mv h2
      obtain ⟨-, hto, -⟩ := add_pawn_move_shape pos q c mv hmem
      exact Or.inl ⟨by rw [hto, hq2], by rw [hto]; exact hempty⟩
    · obtain ⟨q, hoffq, hcase⟩ := pawn_capture_moves_shape b pos c (-1) mv h2
      rcases hcase with ⟨t, hg, -, hmem⟩ | ⟨hempty, hep, rfl⟩
      · obtain ⟨-, hto, -⟩ := add_pawn_move_shape pos q c mv hmem
        exact Or.inr (Or.inl ⟨t, by rw [hto]; exact hg⟩)
      · obtain ⟨ho1, ho2, -, -⟩ := off_some pos (pawn_dir c, (-1 : Int)) q hoffq
        exact Or.inr (Or.inr ⟨hempty, hep, by dsimp only; omega, ho1⟩)
  · obtain ⟨q, hoffq, hcase⟩ := pawn_capture_moves_shape b pos c 1 mv h1
    rcases hcase with ⟨t, hg, -, hmem⟩ | ⟨hempty, hep, rfl⟩
    · obtain ⟨-, hto, -⟩ := add_pawn_move_shape pos q c mv hmem
      exact Or.inr (Or.inl ⟨t, by rw [hto]; exact hg⟩)
    · obtain ⟨ho1, ho2, -, -⟩ := off_some pos (pawn_dir c, (1 : Int)) q hoffq
      exact Or.inr (Or.inr ⟨hempty, hep, by dsimp only; omega, ho1⟩)

theorem king_invariant_plain_update (b b2 : Board) (mv : Move) (fp : Piece)
    (hki : king_invariant b)
    (hwkeq : b2.white_king_pos = b.white_king_pos)
    (hbkeq : b2.black_king_pos = b.black_king_pos)
    (hformula : ∀ sq, b2.squares sq =
      if sq = mv.to' then some fp else if sq = mv.from' then none else b.squares sq)
    (hfp : fp.piece_type ≠ .King)
    (hsrc : ∀ p, b.get_piece mv.from' = some p → p.piece_type ≠ .King)
    (hdst : ∀ p, b.get_piece mv.to' = some p → p.piece_type ≠ .King) :
    king_invariant b2 := by
  refine king_invariant_of_updates b b2 hki hwkeq hbkeq ?_
  intro sq
  rw [hformula sq]
  by_cases h1 : sq = mv.to'
  · rw [if_pos h1]
    right
    refine ⟨fun pp hpp => ?_, fun pp hpp => ?_⟩
    · injection hpp with hpp
      rw [← hpp]; exact hfp
    · rw [h1] at hpp
      exact hdst pp hpp
  · rw [if_neg h1]
    by_cases h2 : sq = mv.from'
    · rw [if_pos h2]
      right
      refine ⟨fun pp hpp => (by cases hpp), fun pp hpp => ?_⟩
      rw [h2] at hpp
      exact hsrc pp hpp
    · rw [if_neg h2]; exact Or.inl rfl

theorem king_invariant_ep_update (b b2 : Board) (mv : Move) (fp : Piece) (rsq : Nat × Nat)
    (hki : king_invariant b)
    (hwkeq : b2.white_king_pos = b.white_king_pos)
    (hbkeq : b2.black_king_pos = b.black_king_pos)
    (hformula : ∀ sq, b2.squares sq =
      if sq = mv.to' then some fp else if sq = mv.from' then none
      else if sq = rsq then none else b.squares sq)
    (hfp : fp.piece_type ≠ .King)
    (hsrc : ∀ p, b.get_piece mv.from' = some p → p.piece_type ≠ .King)
    (hdst : ∀ p, b.get_piece mv.to' = some p → p.piece_type ≠ .King)
    (hrsq : ∀ p, b.get_piece rsq = some p → p.piece_type ≠ .King) :
    king_invariant b2 := by
  refine king_invariant_of_updates b b2 hki hwkeq hbkeq ?_
  intro sq
  rw [hformula sq]
  by_cases h1 : sq = mv.to'
  · rw [if_pos h1]
    right
    refine ⟨fun pp hpp => ?_, fun pp hpp => ?_⟩
    · injection hpp with hpp
      rw [← hpp]; exact hfp
    · rw [h1] at hpp
      exact hdst pp hpp
  · rw [if_neg h1]
    by_cases h2 : sq = mv.from'
    · rw [if_pos h2]
      right
      refine ⟨fun pp hpp => (by cases hpp), fun pp hpp => ?_⟩
      rw [h2] at hpp
      exact hsrc pp hpp
    · rw [if_neg h2]
      by_cases h3 : sq = rsq
      · rw [if_pos h3]
        right
        refine ⟨fun pp hpp => (by cases hpp), fun pp hpp => ?_⟩
        rw [h3] at hpp
        exact hrsq pp hpp
      · rw [if_neg h3]; exact Or.inl rfl

theorem castle_squares_ok (b b2 : Board) (mv : Move) (piece : Piece) (rc : Nat × Nat)
    (hformula : ∀ sq, b2.squares sq =
      if sq = mv.to' then some piece
      else if sq = mv.from' then none
      else if sq = (mv.from'.1, rc.2) then b.squares (mv.from'.1, rc.1)
      else if sq = (mv.from'.1, rc.1) then none
      else b.squares sq)
    (hrook : ∀ p, b.get_piece (mv.from'.1, rc.1) = some p → p.piece_type ≠ .King)
    (hmid : b.get_piece (mv.from'.1, rc.2) = none) :
    ∀ sq, sq ≠ mv.to' → sq ≠ mv.from' →
      (b2.squares sq = b.squares sq ∨
        ((∀ pp, b2.squares sq = some pp → pp.piece_type ≠ .King) ∧
         (∀ pp, b.squares sq = some pp → pp.piece_type ≠ .King))) := by
  intro sq h1 h2
  rw [hformula sq, if_neg h1, if_neg h2]
  by_cases h3 : sq = (mv.from'.1, rc.2)
  · rw [if_pos h3]
    right
    refine ⟨fun pp hpp => hrook pp hpp, fun pp hpp => ?_⟩
    rw [h3] at hpp
    have hmid' : b.squares (mv.from'.1, rc.2) = none := hmid
    rw [hmid'] at hpp
    cases hpp
  · rw [if_neg h3]
    by_cases h4 : sq = (mv.from'.1, rc.1)
    · rw [if_pos h4]
      right
      refine ⟨fun pp hpp => (by cases hpp), fun pp hpp => ?_⟩
      rw [h4] at hpp
      exact hrook pp hpp
    · rw [if_neg h4]; exact Or.inl rfl

theorem pawn_final_piece_not_king (mv : Move) (piece : Piece)
    (hpt : piece.piece_type = .Pawn)
    (hpr : mv.promotion = none ∨
      mv.promotion ∈ [some PieceType.Queen, some .Rook, some .Bishop, some .Knight]) :
    (pawn_final_piece mv piece).piece_type ≠ .King := by
  unfold pawn_final_piece
  split
  · rcases hpr with h | h
    · simp [h]
    · simp only [List.mem_cons, List.not_mem_nil, or_false] at h
      rcases h with h | h | h | h <;> simp [h]
  · rw [hpt]; intro hx; cases hx

/-- C8 (amended): applying a move from `generate_moves` preserves the
one-king-per-side / king-cache invariant, PROVIDED the move's destination does
not hold a King and any recorded en-passant target square is not vertically
adjacent to a King (the code never checks either condition; without them the
invariant can be destroyed, see the counterexample). -/
theorem make_move_preserves_king_invariant (b : Board) (c : Color) (mv : Move)
    (hki : king_invariant b)
    (hmem : mv ∈ b.generate_moves c)
    (hdst : ∀ p, b.get_piece mv.to' = some p → p.piece_type ≠ .King)
    (hep : ∀ r cc, b.en_passant_target = some (r, cc) →
      (∀ p, b.get_piece (r + 1, cc) = some p → p.piece_type ≠ .King) ∧
      (∀ p, b.get_piece (r - 1, cc) = some p → p.piece_type ≠ .King)) :
    king_invariant (b.make_move mv).2 := by
  have hraw : mv ∈ b.generate_raw_moves c := (List.mem_filter.1 hmem).1
  obtain ⟨hr8, hc8, piece, hg, hcolc, hpm⟩ := (generate_raw_moves_mem b c mv).1 hraw
  have hg' : b.get_piece mv.from' = some piece := hg
  have hsrck : piece.piece_type ≠ PieceType.King →
      ∀ p, b.get_piece mv.from' = some p → p.piece_type ≠ .King := by
    intro hnk p hp
    rw [hg'] at hp
    injection hp with hp
    rw [← hp]; exact hnk
  unfold generate_piece_moves at hpm
  cases hpt : piece.piece_type <;> simp only [hpt] at hpm
  case Pawn =>
    obtain ⟨hfrom, hprshape⟩ :=
      generate_pawn_moves_shape b (mv.from'.1, mv.from'.2) piece.color mv hpm
    have hpr : mv.promotion = none ∨
        mv.promotion ∈ [some PieceType.Queen, some .Rook, some .Bishop, some .Knight] := by
      rcases hprshape with h | h
      · exact Or.inl h
      · exact Or.inr h.2
    have hfp : (pawn_final_piece mv piece).piece_type ≠ .King :=
      pawn_final_piece_not_king mv piece hpt hpr
    have hnotk : piece.piece_type ≠ PieceType.King := by rw [hpt]; intro hx; cases hx
    obtain ⟨hwkeq, hbkeq, hnoep, hyesep⟩ := make_move_fields_pawn b mv piece hg' hpt
    rcases generate_pawn_moves_cases b (mv.from'.1, mv.from'.2) piece.color mv hpm with
      ⟨hcols, hdest⟩ | ⟨t, hdest⟩ | ⟨hdest, heptar, hcols, hrow⟩
    · have hc' : mv.from'.2 = mv.to'.2 := hcols.symm
      have hff : ((mv.from'.2 != mv.to'.2) && (b.get_piece mv.to').isNone) = false := by
        simp [hc']
      exact king_invariant_plain_update b _ mv (pawn_final_piece mv piece) hki hwkeq hbkeq
        (hnoep hff) hfp (hsrck hnotk) hdst
    · have hff : ((mv.from'.2 != mv.to'.2) && (b.get_piece mv.to').isNone) = false := by
        simp [hdest]
      exact king_invariant_plain_update b _ mv (pawn_final_piece mv piece) hki hwkeq hbkeq
        (hnoep hff) hfp (hsrck hnotk) hdst
    · have hc' : mv.from'.2 ≠ mv.to'.2 := fun h => hcols h.symm
      have htt : ((mv.from'.2 != mv.to'.2) && (b.get_piece mv.to').isNone) = true := by
        simp [hdest, hc']
      obtain ⟨hepa, hepb⟩ := hep mv.to'.1 mv.to'.2 heptar
      have hrsq : ∀ p, b.get_piece (mv.from'.1, mv.to'.2) = some p → p.piece_type ≠ .King := by
        cases hcol2 : piece.color
        · have h1 : mv.from'.1 = mv.to'.1 + 1 := by
            rw [hcol2] at hrow; unfold pawn_dir at hrow; simp at hrow; omega
          rw [h1]; exact hepa
        · have h1 : mv.from'.1 = mv.to'.1 - 1 := by
            rw [hcol2] at hrow; unfold pawn_dir at hrow; simp at hrow; omega
          rw [h1]; exact hepb
      exact king_invariant_ep_update b _ mv (pawn_final_piece mv piece) (mv.from'.1, mv.to'.2)
        hki hwkeq hbkeq (hyesep htt) hfp (hsrck hnotk) hdst hrsq
  case Rook =>
    have hnk : piece.piece_type ≠ PieceType.King := by rw [hpt]; intro hx; cases hx
    have hnp : piece.piece_type ≠ PieceType.Pawn := by rw [hpt]; intro hx; cases hx
    obtain ⟨hwkeq, hbkeq, hformula⟩ := make_move_fields_plain b mv piece hg' hnk hnp
    exact king_invariant_plain_update b _ mv piece hki hwkeq hbkeq hformula hnk
      (hsrck hnk) hdst
  case Knight =>
    have hnk : piece.piece_type ≠ PieceType.King := by rw [hpt]; intro hx; cases hx
    have hnp : piece.piece_type ≠ PieceType.Pawn := by rw [hpt]; intro hx; cases hx
    obtain ⟨hwkeq, hbkeq, hformula⟩ := make_move_fields_plain b mv piece hg' hnk hnp
    exact king_invariant_plain_update b _ mv piece hki hwkeq hbkeq hformula hnk
      (hsrck hnk) hdst
  case Bishop =>
    have hnk : piece.piece_type ≠ PieceType.King := by rw [hpt]; intro hx; cases hx
    have hnp : piece.piece_type ≠ PieceType.Pawn := by rw [hpt]; intro hx; cases hx
    obtain ⟨hwkeq, hbkeq, hformula⟩ := make_move_fields_plain b mv piece hg' hnk hnp
    exact king_invariant_plain_update b _ mv piece hki hwkeq hbkeq hformula hnk
      (hsrck hnk) hdst
  case Queen =>
    have hnk : piece.piece_type ≠ PieceType.King := by rw [hpt]; intro hx; cases hx
    have hnp : piece.piece_type ≠ PieceType.Pawn := by rw [hpt]; intro hx; cases hx
    obtain ⟨hwkeq, hbkeq, hformula⟩ := make_move_fields_plain b mv piece hg' hnk hnp
    exact king_invariant_plain_update b _ mv piece hki hwkeq hbkeq hformula hnk
      (hsrck hnk) hdst
  case King =>
    have hki2 := hki
    obtain ⟨hwb1, hwb2, hbb1, hbb2, hwk, hbk, hptw⟩ := hki2
    rcases generate_king_moves_cases b (mv.from'.1, mv.from'.2) piece.color mv hpm with
      ⟨d, hd, hoff⟩ | ⟨hv, h4, hto1, hto6⟩
    · obtain ⟨hq1, hq2, hne, hnot2⟩ :=
        king_offsets_adjacent (mv.from'.1, mv.from'.2) d hd mv.to' hoff
      have hnc : ((mv.to'.2 : Int) - (mv.from'.2 : Int)).natAbs ≠ 2 := hnot2
      obtain ⟨⟨hW, hB⟩, hformula⟩ := make_move_fields_king_quiet b mv piece hg' hpt hnc
      cases hcol2 : piece.color
      · have hpieceeq : piece = ⟨.King, .White⟩ := by
          rw [show piece = ⟨piece.piece_type, piece.color⟩ from rfl, hpt, hcol2]
        have hkingat : b.get_piece (mv.from'.1, mv.from'.2) = some ⟨.King, .White⟩ := by
          rw [hg, hpieceeq]
        have hwkpos : (mv.from'.1, mv.from'.2) = b.white_king_pos :=
          (hptw mv.from'.1 hr8 mv.from'.2 hc8).1 hkingat
        obtain ⟨hw2, hb2⟩ := hW hcol2
        refine king_invariant_king_move_white b _ mv.to' hki hw2 hb2 hq1 hq2 ?_ ?_ hdst ?_ ?_
        · rw [← hwkpos]; exact hne
        · rw [hformula mv.to', if_pos rfl, hpieceeq]
        · rw [← hwkpos, hformula (mv.from'.1, mv.from'.2),
            if_neg (fun h => hne h.symm), if_pos rfl]
        · intro sq hs1 hs2
          rw [hformula sq, if_neg hs1,
            if_neg (show sq ≠ mv.from' from fun h => hs2 (by rw [h]; exact hwkpos))]
          exact Or.inl rfl
      · have hpieceeq : piece = ⟨.King, .Black⟩ := by
          rw [show piece = ⟨piece.piece_type, piece.color⟩ from rfl, hpt, hcol2]
        have hkingat : b.get_piece (mv.from'.1, mv.from'.2) = some ⟨.King, .Black⟩ := by
          rw [hg, hpieceeq]
        have hbkpos : (mv.from'.1, mv.from'.2) = b.black_king_pos :=
          (hptw mv.from'.1 hr8 mv.from'.2 hc8).2 hkingat
        obtain ⟨hb2, hw2⟩ := hB hcol2
        refine king_invariant_king_move_black b _ mv.to' hki hb2 hw2 hq1 hq2 ?_ ?_ hdst ?_ ?_
        · rw [← hbkpos]; exact hne
        · rw [hformula mv.to', if_pos rfl, hpieceeq]
        · rw [← hbkpos, hformula (mv.from'.1, mv.from'.2),
            if_neg (fun h => hne h.symm), if_pos rfl]
        · intro sq hs1 hs2
          rw [hformula sq, if_neg hs1,
            if_neg (show sq ≠ mv.from' from fun h => hs2 (by rw [h]; exact hbkpos))]
          exact Or.inl rfl
    · have h4' : mv.from'.2 = 4 := h4
      have hc2 : ((mv.to'.2 : Int) - (mv.from'.2 : Int)).natAbs = 2 := by
        rcases hto6 with h6 | h6 <;> rw [h6, h4'] <;> decide
      have hto1' : mv.to'.1 = mv.from'.1 := hto1
      rcases hto6 with h6 | h6
      · -- kingside castle: rook from (r,7) to (r,5)
        have hto : mv.to' = (mv.from'.1, 6) := by
          have he := Prod.mk.eta (p := mv.to')
          rw [← he, hto1', h6]
        have hgt : ((mv.to'.2 : Int) - (mv.from'.2 : Int)) > 0 := by
          rw [h6, h4']; decide
        obtain ⟨⟨hW, hB⟩, hformula⟩ :=
          make_move_fields_king_castle b mv piece hg' hpt hc2 (7, 5) (by rw [if_pos hgt])
        have hfr4 : mv.from' = (mv.from'.1, 4) := by
          have he := Prod.mk.eta (p := mv.from')
          rw [← he, h4']
        have hv' : b.is_valid_castling ⟨(mv.from'.1, 4), (mv.from'.1, 6), none⟩ = true := by
          rw [← hfr4, ← hto]; exact hv
        obtain ⟨⟨rook, hrook, hrookT⟩, hmid⟩ := is_valid_castling_kingside b mv.from'.1 hv'
        have hrookK : ∀ p, b.get_piece (mv.from'.1, (7, 5).1) = some p →
            p.piece_type ≠ .King := by
          intro p hp
          rw [hrook] at hp
          injection hp with hp
          rw [← hp, hrookT]; intro hx; cases hx
        have hne : mv.to' ≠ (mv.from'.1, mv.from'.2) := by
          rw [hto]
          intro h
          have h2 : (6 : Nat) = mv.from'.2 := congrArg Prod.snd h
          rw [h4'] at h2
          exact absurd h2 (by decide)
        cases hcol2 : piece.color
        · have hpieceeq : piece = ⟨.King, .White⟩ := by
            rw [show piece = ⟨piece.piece_type, piece.color⟩ from rfl, hpt, hcol2]
          have hkingat : b.get_piece (mv.from'.1, mv.from'.2) = some ⟨.King, .White⟩ := by
            rw [hg, hpieceeq]
          have hwkpos : (mv.from'.1, mv.from'.2) = b.white_king_pos :=
            (hptw mv.from'.1 hr8 mv.from'.2 hc8).1 hkingat
          obtain ⟨hw2, hb2⟩ := hW hcol2
          refine king_invariant_king_move_white b _ mv.to' hki hw2 hb2
            (by rw [hto]; exact hr8) (by rw [h6]; decide) ?_ ?_ hdst ?_ ?_
          · rw [← hwkpos]; exact hne
          · rw [hformula mv.to', if_pos rfl, hpieceeq]
          · rw [← hwkpos, hformula (mv.from'.1, mv.from'.2),
              if_neg (fun h => hne h.symm), if_pos rfl]
          · intro sq hs1 hs2
            exact castle_squares_ok b _ mv piece (7, 5) hformula hrookK hmid sq hs1
              (fun h => hs2 (by rw [h]; exact hwkpos))
        · have hpieceeq : piece = ⟨.King, .Black⟩ := by
            rw [show piece = ⟨piece.piece_type, piece.color⟩ from rfl, hpt, hcol2]
          have hkingat : b.get_piece (mv.from'.1, mv.from'.2) = some ⟨.King, .Black⟩ := by
            rw [hg, hpieceeq]
          have hbkpos : (mv.from'.1, mv.from'.2) = b.black_king_pos :=
            (hptw mv.from'.1 hr8 mv.from'.2 hc8).2 hkingat
          obtain ⟨hb2, hw2⟩ := hB hcol2
          refine king_invariant_king_move_black b _ mv.to' hki hb2 hw2
            (by rw [hto]; exact hr8) (by rw [h6]; decide) ?_ ?_ hdst ?_ ?_
          · rw [← hbkpos]; exact hne
          · rw [hformula mv.to', if_pos rfl, hpieceeq]
          · rw [← hbkpos, hformula (mv.from'.1, mv.from'.2),
              if_neg (fun h => hne h.symm), if_pos rfl]
          · intro sq hs1 hs2
            exact castle_squares_ok b _ mv piece (7, 5) hformula hrookK hmid sq hs1
              (fun h => hs2 (by rw [h]; exact hbkpos))
      · -- queenside castle: rook from (r,0) to (r,3)
        have hto : mv.to' = (mv.from'.1, 2) := by
          have he := Prod.mk.eta (p := mv.to')
          rw [← he, hto1', h6]
        have hgt : ¬ ((mv.to'.2 : Int) - (mv.from'.2 : Int)) > 0 := by
          rw [h6, h4']; decide
        obtain ⟨⟨hW, hB⟩, hformula⟩ :=
          make_move_fields_king_castle b mv piece hg' hpt hc2 (0, 3) (by rw [if_neg hgt])
        have hfr4 : mv.from' = (mv.from'.1, 4) := by
          have he := Prod.mk.eta (p := mv.from')
          rw [← he, h4']
        have hv' : b.is_valid_castling ⟨(mv.from'.1, 4), (mv.from'.1, 2), none⟩ = true := by
          rw [← hfr4, ← hto]; exact hv
        obtain ⟨⟨rook, hrook, hrookT⟩, hmid⟩ := is_valid_castling_queenside b mv.from'.1 hv'
        have hrookK : ∀ p, b.get_piece (mv.from'.1, (0, 3).1) = some p →
            p.piece_type ≠ .King := by
          intro p hp
          rw [hrook] at hp
          injection hp with hp
          rw [← hp, hrookT]; intro hx; cases hx
        have hne : mv.to' ≠ (mv.from'.1, mv.from'.2) := by
          rw [hto]
          intro h
          have h2 : (2 : Nat) = mv.from'.2 := congrArg Prod.snd h
          rw [h4'] at h2
          exact absurd h2 (by decide)
        cases hcol2 : piece.color
        · have hpieceeq : piece = ⟨.King, .White⟩ := by
            rw [show piece = ⟨piece.piece_type, piece.color⟩ from rfl, hpt, hcol2]
          have hkingat : b.get_piece (mv.from'.1, mv.from'.2) = some ⟨.King, .White⟩ := by
            rw [hg, hpieceeq]
          have hwkpos : (mv.from'.1, mv.from'.2) = b.white_king_pos :=
            (hptw mv.from'.1 hr8 mv.from'.2 hc8).1 hkingat
          obtain ⟨hw2, hb2⟩ := hW hcol2
          refine king_invariant_king_move_white b _ mv.to' hki hw2 hb2
            (by rw [hto]; exact hr8) (by rw [h6]; decide) ?_ ?_ hdst ?_ ?_
          · rw [← hwkpos]; exact hne
          · rw [hformula mv.to', if_pos rfl, hpieceeq]
          · rw [← hwkpos, hformula (mv.from'.1, mv.from'.2),
              if_neg (fun h => hne h.symm), if_pos rfl]
          · intro sq hs1 hs2
            exact castle_squares_ok b _ mv piece (0, 3) hformula hrookK hmid sq hs1
              (fun h => hs2 (by rw [h]; exact hwkpos))
        · have hpieceeq : piece = ⟨.King, .Black⟩ := by
            rw [show piece = ⟨piece.piece_type, piece.color⟩ from rfl, hpt, hcol2]
          have hkingat : b.get_piece (mv.from'.1, mv.from'.2) = some ⟨.King, .Black⟩ := by
            rw [hg, hpieceeq]
          have hbkpos : (mv.from'.1, mv.from'.2) = b.black_king_pos :=
            (hptw mv.from'.1 hr8 mv.from'.2 hc8).2 hkingat
          obtain ⟨hb2, hw2⟩ := hB hcol2
          refine king_invariant_king_move_black b _ mv.to' hki hb2 hw2
            (by rw [hto]; exact hr8) (by rw [h6]; decide) ?_ ?_ hdst ?_ ?_
          · rw [← hbkpos]; exact hne
          · rw [hformula mv.to', if_pos rfl, hpieceeq]
          · rw [← hbkpos, hformula (mv.from'.1, mv.from'.2),
              if_neg (fun h => hne h.symm), if_pos rfl]
          · intro sq hs1 hs2
            exact castle_squares_ok b _ mv piece (0, 3) hformula hrookK hmid sq hs1
              (fun h => hs2 (by rw [h]; exact hbkpos))

/-- C8 counterexample: the adjacent-kings board `bKK` satisfies the invariant,
`generate_moves` offers White the king capture (4,4)→(4,5), and applying it
deletes the black king, breaking the invariant. -/
theorem king_capture_counterexample :
    king_invariant bKK ∧
    (⟨(4, 4), (4, 5), none⟩ : Move) ∈ bKK.generate_moves .White ∧
    ¬ king_invariant (bKK.make_move ⟨(4, 4), (4, 5), none⟩).2 := by decide

/-- Witness: the amended C8 theorem applied on `bC3` to the quiet white king
move (4,4)→(3,4). -/
theorem make_move_preserves_king_invariant_witness :
    king_invariant (bC3.make_move ⟨(4, 4), (3, 4), none⟩).2 :=
  make_move_preserves_king_invariant bC3 .White ⟨(4, 4), (3, 4), none⟩ (by decide) (by decide)
    (by decide) (fun r cc h => nomatch h)
